import Mathlib

/-!
Verification of the arke-ingest-worker Initial Discovery engine.

This file embeds, as executable Lean definitions, the parts of the source
relevant to the frozen claims:

* `src/lib/chunking.ts` — recursive separator-based text chunking
  (`chunkText`, `splitBySeparator`, `characterLevelSplit`, `getOverlapText`,
  `calculateChunkSize`);
* `src/services/initial-discovery.ts` — `buildDiscoveryTree`,
  `uploadFileBatch`, `publishDirectoryBatch`, `establishRelationships`,
  `runSyncDiscovery`;
* the `BatchStateObject` durable object — `completeFile` and the `alarm`
  scheduled-step handler;
* `IPFSWrapperClient.executeWithCASRetry` — the optimistic-concurrency
  retry wrapper.

JavaScript strings are modelled as `List Char`; JavaScript `number` values
appearing here are non-negative integral sizes/counters and are modelled as
`Nat`.  Potentially divergent source loops are modelled with an explicit
fuel argument (structural on the fuel), with fuel bounds proved or supplied
at call sites; where the source would diverge the model runs out of fuel.
External I/O (blob store, entity store, timers, queue) is modelled by
explicit oracle parameters recording the calls the code would make.
-/

namespace ArkeIngest

/-- JS `Array.prototype.slice(a, b)` for `0 ≤ a ≤ b` on a char list. -/
def sliceList (l : List Char) (a b : Nat) : List Char :=
  (l.take b).drop a

/-- JS `String.prototype.split(sep)` for a non-empty separator `sep`,
fuelled structurally; `jsSplit` below supplies sufficient fuel.  Mirrors
the leftmost, non-overlapping match semantics of JS `split`. -/
def splitOnFuel (sep : List Char) : Nat → List Char → List (List Char)
  | _, [] => [[]]
  | 0, l => [l]
  | f + 1, c :: cs =>
    if sep ≠ [] ∧ sep.isPrefixOf (c :: cs) then
      [] :: splitOnFuel sep f ((c :: cs).drop sep.length)
    else
      match splitOnFuel sep f cs with
      | [] => [[c]]
      | h :: t => (c :: h) :: t

/-- JS `text.split(sep)` for non-empty `sep` (the chunker only calls
`split` with a non-empty separator; the empty separator is routed to
`characterLevelSplit` before any `split` happens). -/
def jsSplit (sep l : List Char) : List (List Char) :=
  splitOnFuel sep l.length l

/-- JS `haystack.includes(needle)` on char lists. -/
def listContainsSub (needle : List Char) : List Char → Bool
  | [] => needle.isEmpty
  | c :: cs => needle.isPrefixOf (c :: cs) || listContainsSub needle cs

-- ===========================================================================
-- Chunking engine (src/lib/chunking.ts)
-- ===========================================================================

/-- `ChunkingConfig` from `src/lib/chunking.ts` (the `algorithm` tag is not
read by any of the embedded functions and is omitted). -/
structure ChunkingConfig where
  target_chunks : Nat
  min_chunk_size : Nat
  max_chunk_size : Nat
  overlap : Nat
deriving Repr, DecidableEq

/-- `DEFAULT_CHUNKING_CONFIG`. -/
def DEFAULT_CHUNKING_CONFIG : ChunkingConfig :=
  { target_chunks := 50, min_chunk_size := 1000, max_chunk_size := 10000,
    overlap := 200 }

/-- `ChunkResult` — output chunk with id and source positions. -/
structure ChunkResult where
  id : String
  text : List Char
  char_start : Nat
  char_end : Nat
deriving Repr, DecidableEq

/-- `InternalChunkResult`. -/
structure IChunk where
  text : List Char
  char_start : Nat
  char_end : Nat
deriving Repr, DecidableEq

/-- The `SEPARATORS` priority list: paragraph, line, sentence, clause,
word, then character-level. -/
def SEPARATORS : List (List Char) :=
  [['\n', '\n'], ['\n'], ['.', ' '], [',', ' '], [' '], []]

/-- `calculateChunkSize`.  With `target_chunks = 0` the JS division yields
`Infinity`, which the `Math.min` clamp turns into `max_chunk_size`. -/
def calculateChunkSize (fileSize : Nat) (config : ChunkingConfig) : Nat :=
  if fileSize ≤ config.min_chunk_size then fileSize
  else
    let ideal :=
      if config.target_chunks = 0 then config.max_chunk_size
      else (fileSize + config.target_chunks - 1) / config.target_chunks
    max config.min_chunk_size (min config.max_chunk_size ideal)

/-- `shouldChunk`. -/
def shouldChunk (fileSize : Nat) (config : ChunkingConfig) : Bool :=
  config.min_chunk_size ≤ fileSize

/-- `getOverlapText`: last `ov` characters of `chunk`, trimmed to start
just after a space when a space occurs in the first half of the window.
JS `indexOf` returns `-1` when absent; `List.indexOf` returns the length,
which fails the `spaceIndex < overlap / 2` test exactly as `-1` fails
`spaceIndex > 0`, so the behaviours agree. -/
def getOverlapText (chunk : List Char) (ov : Nat) : List Char :=
  if ov = 0 ∨ chunk.length ≤ ov then []
  else
    let ot := chunk.drop (chunk.length - ov)
    let si := ot.indexOf ' '
    if 0 < si ∧ 2 * si < ov then ot.drop (si + 1) else ot

/-- One iteration body of `characterLevelSplit`'s `while` loop, fuelled.
The source loop advances `start` by `chunkSize - overlap` (falling back to
`end` when that step is ≤ 0) and, when fewer than `overlap` characters
would remain, extends the chunk just pushed to the end of the text and
stops.  With `chunkSize = 0` the source loops forever; the model then runs
out of fuel. -/
def clsGo (cs ov : Nat) (text : List Char) : Nat → Nat → List IChunk
  | _, 0 => []
  | start, fuel + 1 =>
    if start < text.length then
      let e := min (start + cs) text.length
      let s2 := if cs ≤ ov then e else start + (cs - ov)
      if s2 < text.length ∧ text.length - s2 < ov then
        [⟨sliceList text start text.length, start, text.length⟩]
      else
        ⟨sliceList text start e, start, e⟩ :: clsGo cs ov text s2 fuel
    else []

/-- `characterLevelSplit`. -/
def characterLevelSplit (text : List Char) (cs ov : Nat) : List IChunk :=
  clsGo cs ov text 0 (text.length + 1)

mutual

/-- `recursiveChunk`: return the text whole if it fits, otherwise try each
separator in priority order (the `for` loop over `SEPARATORS`, expressed
as recursion over the separator list: a separator whose split produced no
chunks falls through to the next one), with `characterLevelSplit` as the
final fallback.  `fuel` bounds the call depth; `chunkFuel` below is a
proved-sufficient bound. -/
def recursiveChunk : Nat → Nat → Nat → List Char → List (List Char) → List IChunk
  | 0, _, _, _, _ => []
  | fuel + 1, cs, ov, text, seps =>
    if text.length ≤ cs then [⟨text, 0, text.length⟩]
    else
      match seps with
      | [] => characterLevelSplit text cs ov
      | sep :: rest =>
        let r := splitBySeparator fuel cs ov text sep rest
        if r.isEmpty then recursiveChunk fuel cs ov text rest else r
termination_by structural fuel _ _ _ _ => fuel

/-- `splitBySeparator`: empty separator delegates to character-level
splitting; a split that produced a single part signals (by returning `[]`)
that the next separator should be tried; otherwise run the accumulation
loop over the parts. -/
def splitBySeparator : Nat → Nat → Nat → List Char → List Char → List (List Char) → List IChunk
  | 0, _, _, _, _, _ => []
  | fuel + 1, cs, ov, text, sep, remaining =>
    if sep = [] then characterLevelSplit text cs ov
    else
      let parts := jsSplit sep text
      if parts.length = 1 then []
      else splitLoop fuel cs ov sep remaining parts [] [] 0 0
termination_by structural fuel _ _ _ _ _ => fuel

/-- The `for` loop of `splitBySeparator`, over `parts`, with accumulator
state `(chunks, currentChunk, currentStart, position)`.  Branches, in
source order: part fits the running chunk; running chunk empty and the
part alone is too big (recurse into finer separators, or truncate when
none remain) — these two branches advance `position` by
`partWithSep.length` in addition to the loop-bottom advance, exactly as
the source does; running chunk full (push it and seed the next chunk with
the overlap tail, discarding the overlap if the seeded chunk would already
be too big).  After the loop the non-empty running chunk is pushed. -/
def splitLoop : Nat → Nat → Nat → List Char → List (List Char) → List (List Char) → List IChunk → List Char → Nat → Nat → List IChunk
  | 0, _, _, _, _, _, chunks, _, _, _ => chunks
  | _ + 1, _, _, _, _, [], chunks, currentChunk, currentStart, _ =>
    if currentChunk.isEmpty then chunks
    else chunks ++ [⟨currentChunk, currentStart, currentStart + currentChunk.length⟩]
  | fuel + 1, cs, ov, sep, remaining, part :: parts, chunks, currentChunk, currentStart, position =>
    let isLast := parts.isEmpty
    let partWithSep := if isLast then part else part ++ sep
    let candidate := currentChunk ++ partWithSep
    let bottomAdv : Nat → Nat := fun p =>
      if isLast then p else p + part.length + sep.length
    if candidate.length ≤ cs then
      splitLoop fuel cs ov sep remaining parts chunks candidate currentStart
        (bottomAdv position)
    else if currentChunk.isEmpty then
      if cs < part.length ∧ ¬ remaining.isEmpty then
        let subs := recursiveChunk fuel cs ov part remaining
        let shifted := subs.map fun c =>
          (⟨c.text, position + c.char_start, position + c.char_end⟩ : IChunk)
        splitLoop fuel cs ov sep remaining parts (chunks ++ shifted) []
          (position + partWithSep.length)
          (bottomAdv (position + partWithSep.length))
      else
        let truncated := partWithSep.take cs
        splitLoop fuel cs ov sep remaining parts
          (chunks ++ [⟨truncated, position, position + truncated.length⟩]) []
          (position + partWithSep.length)
          (bottomAdv (position + partWithSep.length))
    else
      let closed : IChunk := ⟨currentChunk, currentStart, currentStart + currentChunk.length⟩
      let overlapText := getOverlapText currentChunk ov
      let overlapStart := currentStart + currentChunk.length - overlapText.length
      let seeded := overlapText ++ partWithSep
      if cs < seeded.length then
        splitLoop fuel cs ov sep remaining parts (chunks ++ [closed])
          partWithSep position (bottomAdv position)
      else
        splitLoop fuel cs ov sep remaining parts (chunks ++ [closed])
          seeded overlapStart (bottomAdv position)
termination_by structural fuel _ _ _ _ _ _ _ _ _ => fuel

end

/-- A call-depth bound sufficient for `recursiveChunk` on `text` with
separator list `seps` (each level of the separator list costs at most one
`splitBySeparator` plus a `splitLoop` pass over at most `length + 1`
parts). -/
def chunkFuel (textLen seps : Nat) : Nat :=
  (textLen + 4) * seps + 1

/-- `chunkText`: empty below the minimum size, otherwise run the recursive
chunker at the adaptive chunk size and assign positional ids. -/
def chunkText (text : List Char) (config : ChunkingConfig) : List ChunkResult :=
  if text.length < config.min_chunk_size then []
  else
    let chunkSize := calculateChunkSize text.length config
    let results := recursiveChunk (chunkFuel text.length SEPARATORS.length)
      chunkSize config.overlap text SEPARATORS
    results.enum.map fun ic =>
      ⟨"chunk_" ++ toString ic.1, ic.2.text, ic.2.char_start, ic.2.char_end⟩

-- ===========================================================================
-- Paths and association maps (shared by the discovery service)
-- ===========================================================================

/-- JS `str.split(c)` for a single-character separator, structurally. -/
def splitOnChar (sepc : Char) : List Char → List (List Char)
  | [] => [[]]
  | c :: cs =>
    let r := splitOnChar sepc cs
    if c = sepc then [] :: r
    else
      match r with
      | [] => [[c]]
      | h :: t => (c :: h) :: t

/-- `path.split('/').filter((p) => p)` — the non-empty segments. -/
def pathSegs (s : String) : List (List Char) :=
  (splitOnChar '/' s.data).filter (fun l => !l.isEmpty)

/-- Number of non-empty `/`-separated segments. -/
def numSegs (s : String) : Nat := (pathSegs s).length

/-- `dirPath === '/' ? 0 : dirPath.split('/').filter((p) => p).length`. -/
def jsDepth (p : String) : Nat := if p = "/" then 0 else numSegs p

/-- `parts.join('/')` on segment char-lists. -/
def joinSegs : List (List Char) → List Char
  | [] => []
  | [x] => x
  | x :: y :: t => x ++ '/' :: joinSegs (y :: t)

/-- `parts.length === 1 ? '/' : '/' + parts.slice(0, -1).join('/')`. -/
def parentPathOf (p : String) : String :=
  if numSegs p = 1 then "/"
  else String.mk ('/' :: joinSegs (pathSegs p).dropLast)

/-- JS object property read `m[k]` on an association list. -/
def alookup (k : String) : List (String × α) → Option α
  | [] => none
  | pr :: rest => if pr.1 = k then some pr.2 else alookup k rest

/-- Update the value at an existing key in place (JS mutation of the
property's object; keys are unique by construction, see
`buildDiscoveryTree_keys_nodup`). -/
def aupdate (k : String) (f : α → α) (m : List (String × α)) : List (String × α) :=
  m.map fun pr => if pr.1 = k then (pr.1, f pr.2) else pr

/-- JS property write `m[k] = v`: replace in place when the key exists,
append otherwise (string-keyed JS objects preserve insertion order). -/
def aset (k : String) (v : α) (m : List (String × α)) : List (String × α) :=
  if (alookup k m).isSome then aupdate k (fun _ => v) m else m ++ [(k, v)]

-- ===========================================================================
-- Initial discovery data model (src/types.ts)
-- ===========================================================================

/-- `DiscoveryTextFile`. -/
structure DiscoveryTextFile where
  filename : String
  r2_key : String
  cid : Option String := none
deriving Repr, DecidableEq

/-- `DiscoveryNode`.  `relationships_set` is declared in `src/types.ts`
but never assigned anywhere in the source. -/
structure DiscoveryNode where
  path : String
  depth : Nat
  parent_path : Option String := none
  children_paths : List String := []
  text_files : List DiscoveryTextFile := []
  published : Bool := false
  relationships_set : Option Bool := none
  pi : Option String := none
  tip : Option String := none
  version : Option Nat := none
deriving Repr, DecidableEq

/-- `DiscoveryPhase`. -/
inductive DiscoveryPhase
  | UPLOADING | PUBLISHING | RELATIONSHIPS | DONE | ERROR
deriving Repr, DecidableEq

/-- `DiscoveryState`. -/
structure DiscoveryState where
  nodes : List (String × DiscoveryNode)
  directories_total : Nat
  directories_published : Nat
  node_pis : List (String × String)
  node_tips : List (String × String)
  node_versions : List (String × Nat)
  phase : DiscoveryPhase
  current_depth : Nat
  files_total : Nat
  files_uploaded : Nat
  error : Option String := none
  retry_count : Option Nat := none
deriving Repr, DecidableEq

/-- `DiscoveryResult`. -/
structure DiscoveryResult where
  root_pi : String
  node_pis : List (String × String)
  node_tips : List (String × String)
  node_versions : List (String × Nat)
deriving Repr, DecidableEq

/-- `QueueFileInfo` (the fields read by discovery). -/
structure QueueFileInfo where
  r2_key : String
  file_name : String
deriving Repr, DecidableEq

/-- `DirectoryGroup` (the fields read by discovery). -/
structure DirectoryGroup where
  directory_path : String
  files : List QueueFileInfo
deriving Repr, DecidableEq

/-- `BatchManifest` (the fields read by discovery). -/
structure BatchManifest where
  directories : List DirectoryGroup
deriving Repr, DecidableEq

-- ===========================================================================
-- Tree builder (src/services/initial-discovery.ts, buildDiscoveryTree)
-- ===========================================================================

/-- `TEXT_EXTENSIONS`. -/
def TEXT_EXTENSIONS : List String := ["md", "txt", "json", "xml", "csv", "html", "htm"]

/-- `isTextFile`: extension after the last dot, lowercased, in the set.
JS `split('.').pop()` on a non-empty array is the last element; the
`?? ''` fallback is unreachable. -/
def isTextFile (filename : String) : Bool :=
  let ext := String.mk (((splitOnChar '.' filename.data).getLastD []).map Char.toLower)
  TEXT_EXTENSIONS.contains ext

/-- A node as first created: no parent, no children, unpublished. -/
def freshNode (p : String) (d : Nat) : DiscoveryNode :=
  { path := p, depth := d }

/-- First loop of `buildDiscoveryTree`: one manifest directory group —
create (or overwrite) the node, classify its text files, count them,
record the path in `allPaths` (a JS `Set`: ordered, deduplicated). -/
def addGroup (acc : List (String × DiscoveryNode) × List String × Nat)
    (g : DirectoryGroup) : List (String × DiscoveryNode) × List String × Nat :=
  let dirPath := g.directory_path
  let allPaths := if acc.2.1.contains dirPath then acc.2.1 else acc.2.1 ++ [dirPath]
  let tfs := (g.files.filter fun f => isTextFile f.file_name).map
    fun f => ({ filename := f.file_name, r2_key := f.r2_key } : DiscoveryTextFile)
  let node := { freshNode dirPath (jsDepth dirPath) with text_files := tfs }
  (aset dirPath node acc.1, allPaths, acc.2.2 + tfs.length)

/-- `children_paths.includes(dirPath) || push(dirPath)`. -/
def addChildIfAbsent (p : String) (n : DiscoveryNode) : DiscoveryNode :=
  if n.children_paths.contains p then n
  else { n with children_paths := n.children_paths ++ [p] }

/-- Second loop of `buildDiscoveryTree`, iterating the `allPaths` set —
including elements added *during* iteration, which a JS `Set` iterator
visits in insertion order; the model keeps the not-yet-visited elements in
an explicit worklist.  For each non-root path: set its `parent_path`,
synthesize the parent node if missing (enqueuing the parent for a later
visit), and add the path to the parent's `children_paths` once.  `fuel`
bounds the iteration count; `wlFuel` below is a proved-sufficient bound. -/
def processPaths : Nat → List (String × DiscoveryNode) → List String → List (String × DiscoveryNode)
  | 0, nodes, _ => nodes
  | _ + 1, nodes, [] => nodes
  | fuel + 1, nodes, p :: rest =>
    if p = "/" then processPaths fuel nodes rest
    else
      let parentPath := parentPathOf p
      let nodes1 := aupdate p (fun n => { n with parent_path := some parentPath }) nodes
      if (alookup parentPath nodes1).isSome then
        processPaths fuel (aupdate parentPath (addChildIfAbsent p) nodes1) rest
      else
        let nodes2 := nodes1 ++ [(parentPath, freshNode parentPath (jsDepth parentPath))]
        processPaths fuel (aupdate parentPath (addChildIfAbsent p) nodes2) (rest ++ [parentPath])

/-- Cost of one worklist entry: visiting a path may enqueue its parent,
whose cost is strictly smaller (`itemCost_parent_lt`). -/
def itemCost (p : String) : Nat :=
  if p = "/" then 1 else 2 * numSegs p + 2

/-- Sufficient iteration fuel for `processPaths`. -/
def wlFuel (wl : List String) : Nat := (wl.map itemCost).sum

/-- `buildDiscoveryTree`. -/
def buildDiscoveryTree (manifest : BatchManifest) : DiscoveryState :=
  let init := manifest.directories.foldl addGroup ([], [], 0)
  let totalFiles := init.2.2
  let nodes1 := processPaths (wlFuel init.2.1) init.1 init.2.1
  let nodes2 :=
    if (alookup "/" nodes1).isSome then nodes1
    else
      nodes1 ++ [("/", { freshNode "/" 0 with
        children_paths := (nodes1.map Prod.fst).filter fun p =>
          if p = "/" then false else numSegs p == 1 })]
  let maxDepth := (nodes2.map fun pr => pr.2.depth).foldl max 0
  { nodes := nodes2
    directories_total := nodes2.length
    directories_published := 0
    node_pis := []
    node_tips := []
    node_versions := []
    phase := if 0 < totalFiles then .UPLOADING else .PUBLISHING
    current_depth := maxDepth
    files_total := totalFiles
    files_uploaded := 0 }

-- ===========================================================================
-- UPLOADING phase (uploadFileBatch)
-- ===========================================================================

/-- Outcome of fetching one file from the blob store and uploading it to
the content store: the blob-store `get` returned `null`; the upload
succeeded with a content id; or some step of the fetch-and-upload threw. -/
inductive UploadOutcome
  | missing
  | ok (cid : String)
  | err
deriving Repr, DecidableEq

/-- `getFilesNeedingUpload`: `(node path, index)` of every text file whose
`cid` is still `undefined` (empty-string cids are failed, not retried), in
node order then file order. -/
def getFilesNeedingUpload (s : DiscoveryState) : List (String × Nat) :=
  s.nodes.flatMap fun pr =>
    pr.2.text_files.enum.filterMap fun itf =>
      if itf.2.cid = none then some (pr.1, itf.1) else none

/-- Set the `cid` of the file at an index. -/
def setCidAt (c : String) : List DiscoveryTextFile → Nat → List DiscoveryTextFile
  | [], _ => []
  | f :: fs, 0 => { f with cid := some c } :: fs
  | f :: fs, i + 1 => f :: setCidAt c fs i

/-- Process one selected file: success records the returned cid and bumps
`files_uploaded`; a throw records the empty-string sentinel and still
bumps `files_uploaded`; a `null` blob leaves the file untouched. -/
def applyUpload (env : String → UploadOutcome) (s : DiscoveryState)
    (item : String × Nat) : DiscoveryState :=
  match alookup item.1 s.nodes with
  | none => s
  | some n =>
    match n.text_files[item.2]? with
    | none => s
    | some f =>
      match env f.r2_key with
      | .missing => s
      | .ok c =>
        { s with
          nodes := aupdate item.1
            (fun n => { n with text_files := setCidAt c n.text_files item.2 }) s.nodes
          files_uploaded := s.files_uploaded + 1 }
      | .err =>
        { s with
          nodes := aupdate item.1
            (fun n => { n with text_files := setCidAt "" n.text_files item.2 }) s.nodes
          files_uploaded := s.files_uploaded + 1 }

/-- `uploadFileBatch`: take up to `batchSize` pending files; with none
pending move straight to PUBLISHING; otherwise process the batch (the
per-file effects are disjoint, so the concurrent `Promise.all` equals the
fold) and move to PUBLISHING when nothing remains.  Always reports more
work. -/
def uploadFileBatch (env : String → UploadOutcome) (batchSize : Nat)
    (s : DiscoveryState) : DiscoveryState × Bool :=
  let pending := (getFilesNeedingUpload s).take batchSize
  if pending.isEmpty then ({ s with phase := .PUBLISHING }, true)
  else
    let s1 := pending.foldl (applyUpload env) s
    let s2 := if (getFilesNeedingUpload s1).isEmpty then { s1 with phase := .PUBLISHING } else s1
    (s2, true)

-- ===========================================================================
-- PUBLISHING phase (publishDirectoryBatch)
-- ===========================================================================

/-- Result of `createEntity` for one directory. -/
structure CreateResult where
  pi : String
  tip : String
  ver : Nat
deriving Repr, DecidableEq

/-- The `createEntity` request a publish would send (recorded for
inspection). -/
structure CreateCall where
  path : String
  components : List (String × String)
  children_pi : List String
deriving Repr, DecidableEq

/-- `allChildrenPublished`. -/
def allChildrenPublished (n : DiscoveryNode) (s : DiscoveryState) : Bool :=
  n.children_paths.all fun cp =>
    match alookup cp s.nodes with
    | some c => c.published
    | none => false

/-- `getDirectoriesReadyToPublish`: unpublished nodes at the current depth
whose children are all published. -/
def getDirectoriesReadyToPublish (s : DiscoveryState) : List DiscoveryNode :=
  (s.nodes.map Prod.snd).filter fun n =>
    n.depth == s.current_depth && !n.published && allChildrenPublished n s

/-- `publishDirectory`: build components from files with a non-empty cid,
collect already-recorded child pis (read against the pre-batch `node_pis`,
because inside one `Promise.all` every request is built before any sibling
records its result), create the entity, mark the node published and record
id/tip/version in the node and the denormalized maps. -/
def publishDirectory (env : String → CreateResult) (prePis : List (String × String))
    (s : DiscoveryState) (n : DiscoveryNode) : DiscoveryState × CreateCall :=
  let components := n.text_files.filterMap fun f =>
    match f.cid with
    | some c => if 0 < c.length then some (f.filename, c) else none
    | none => none
  let childPis := n.children_paths.filterMap fun p => alookup p prePis
  let res := env n.path
  let s1 :=
    { s with
      nodes := aupdate n.path
        (fun m => { m with pi := some res.pi, tip := some res.tip,
                           version := some res.ver, published := true }) s.nodes
      node_pis := aset n.path res.pi s.node_pis
      node_tips := aset n.path res.tip s.node_tips
      node_versions := aset n.path res.ver s.node_versions
      directories_published := s.directories_published + 1 }
  (s1, ⟨n.path, components, childPis⟩)

/-- Publish each directory of a list in turn (the concurrent batch as the
sequential fold; ready directories never contain a parent–child pair, so
the per-directory effects commute). -/
def applyPublishList (env : String → CreateResult) (prePis : List (String × String))
    (s : DiscoveryState) (dirs : List DiscoveryNode) : DiscoveryState × List CreateCall :=
  dirs.foldl (fun acc n =>
    let r := publishDirectory env prePis acc.1 n
    (r.1, acc.2 ++ [r.2])) (s, [])

/-- `publishDirectoryBatch`: with no directory ready at the current depth,
either walk one depth up or (at depth 0) move to RELATIONSHIPS; otherwise
publish up to `batchSize` ready directories.  Reports whether unpublished
directories remain. -/
def publishDirectoryBatch (env : String → CreateResult) (batchSize : Nat)
    (s : DiscoveryState) : DiscoveryState × Bool × List CreateCall :=
  let ready := (getDirectoriesReadyToPublish s).take batchSize
  if ready.isEmpty then
    if 0 < s.current_depth then ({ s with current_depth := s.current_depth - 1 }, true, [])
    else ({ s with phase := .RELATIONSHIPS }, true, [])
  else
    let step := applyPublishList env s.node_pis s ready
    let unpub := ((step.1.nodes.map Prod.snd).filter fun n => !n.published).length
    (step.1, decide (0 < unpub) || decide (step.1.phase ≠ .DONE), step.2)

-- ===========================================================================
-- RELATIONSHIPS phase (establishRelationships) and drivers
-- ===========================================================================

/-- `establishRelationships`: the only relation-update it issues is the
best-effort `addChildToParent` attaching the already-published root to an
externally supplied parent (JS truthiness: an empty-string `parentPi` or
root pi is skipped); success or failure of that call leaves the state the
same.  Then the phase becomes DONE.  Returns the list of
`(parent_pi, child_pi)` relation calls issued. -/
def establishRelationships (s : DiscoveryState) (parentPi : Option String) :
    DiscoveryState × List (String × String) :=
  let calls :=
    match parentPi, alookup "/" s.node_pis with
    | some pp, some rootPi =>
      if pp ≠ "" ∧ rootPi ≠ "" then [(pp, rootPi)] else []
    | _, _ => []
  ({ s with phase := .DONE }, calls)

/-- `processDiscoveryBatch`: dispatch one batch on the current phase;
RELATIONSHIPS, DONE and ERROR report no more work without acting. -/
def processDiscoveryBatch (uenv : String → UploadOutcome) (penv : String → CreateResult)
    (uploadBatchSize entityBatchSize : Nat) (s : DiscoveryState) : DiscoveryState × Bool :=
  match s.phase with
  | .UPLOADING => uploadFileBatch uenv uploadBatchSize s
  | .PUBLISHING =>
    let r := publishDirectoryBatch penv entityBatchSize s
    (r.1, r.2.1)
  | .RELATIONSHIPS => (s, false)
  | .DONE => (s, false)
  | .ERROR => (s, false)

/-- The `while (state.phase === 'UPLOADING')` loop of `runSyncDiscovery`,
fuelled. -/
def syncUploadLoop (uenv : String → UploadOutcome) : Nat → DiscoveryState → DiscoveryState
  | 0, s => s
  | fuel + 1, s =>
    if s.phase = .UPLOADING then syncUploadLoop uenv fuel (uploadFileBatch uenv 1000 s).1
    else s

/-- The `while (state.phase === 'PUBLISHING')` loop of `runSyncDiscovery`,
fuelled. -/
def syncPublishLoop (penv : String → CreateResult) : Nat → DiscoveryState → DiscoveryState
  | 0, s => s
  | fuel + 1, s =>
    if s.phase = .PUBLISHING then syncPublishLoop penv fuel (publishDirectoryBatch penv 1000 s).1
    else s

/-- `runSyncDiscovery`: build the tree, drain the upload and publish
loops, establish relationships, and return the result (throwing when the
root pi is missing or empty — JS truthiness again).  Also returns the
final state and the relation calls for inspection. -/
def runSyncDiscovery (fuel : Nat) (uenv : String → UploadOutcome)
    (penv : String → CreateResult) (manifest : BatchManifest) (parentPi : Option String) :
    DiscoveryState × List (String × String) × Except String DiscoveryResult :=
  let s0 := buildDiscoveryTree manifest
  let s1 := syncUploadLoop uenv fuel s0
  let s2 := syncPublishLoop penv fuel s1
  let r := establishRelationships s2 parentPi
  match alookup "/" r.1.node_pis with
  | some rootPi =>
    if rootPi = "" then (r.1, r.2, .error "Discovery completed but root PI not found")
    else (r.1, r.2, .ok ⟨rootPi, r.1.node_pis, r.1.node_tips, r.1.node_versions⟩)
  | none => (r.1, r.2, .error "Discovery completed but root PI not found")

-- ===========================================================================
-- Discovery step relation (for reachability invariants)
-- ===========================================================================

/-- One persisted step of the Discovery Processor on a `DiscoveryState`:
an upload batch, a publish batch (`publishFull`), a publish batch in which
only a sub-batch of the ready directories completed before an exception
interrupted the `Promise.all` — the coordinator persists that partial
state too (`publishPartial`) — or the relationships step. -/
inductive DStep : DiscoveryState → DiscoveryState → Prop
  | upload (uenv : String → UploadOutcome) (bs : Nat) (s : DiscoveryState)
      (h : s.phase = .UPLOADING) : DStep s (uploadFileBatch uenv bs s).1
  | publishFull (penv : String → CreateResult) (bs : Nat) (s : DiscoveryState)
      (h : s.phase = .PUBLISHING) : DStep s (publishDirectoryBatch penv bs s).1
  | publishPartial (penv : String → CreateResult) (bs : Nat) (s : DiscoveryState)
      (sub : List DiscoveryNode)
      (hsub : sub.Sublist ((getDirectoriesReadyToPublish s).take bs))
      (h : s.phase = .PUBLISHING) : DStep s (applyPublishList penv s.node_pis s sub).1
  | rel (parentPi : Option String) (s : DiscoveryState)
      (h : s.phase = .RELATIONSHIPS) : DStep s (establishRelationships s parentPi).1

/-- States of the Discovery Processor reachable from a manifest. -/
inductive DReachable (m : BatchManifest) : DiscoveryState → Prop
  | init : DReachable m (buildDiscoveryTree m)
  | step {s s' : DiscoveryState} : DReachable m s → DStep s s' → DReachable m s'

-- ===========================================================================
-- Entity store client (src/services/ipfs-wrapper.ts, executeWithCASRetry)
-- ===========================================================================

/-- Outcome of one attempt's HTTP response inside `executeWithCASRetry`:
success; a 409 CAS conflict; or a non-ok status, each carrying the
response body text. -/
inductive RespOutcome (T : Type)
  | ok (v : T)
  | conflict (text : String)
  | errStatus (status : Nat) (text : String)

/-- Environment for one attempt: the result of the `getEntityTip` fetch
(`error` = the message of the exception it threw), and the response to the
operation as a function of the tip that was sent. -/
structure AttemptEnv (T : Type) where
  tip : Except String String
  resp : String → RespOutcome T

/-- Observable events of a retry run: a tip fetch, the operation being
issued with the tip it was given, and a backoff sleep of a given length
before the next attempt. -/
instance {α β : Type} [DecidableEq α] [DecidableEq β] : DecidableEq (Except α β) := fun a b =>
  match a, b with
  | .ok x, .ok y =>
    if h : x = y then .isTrue (by rw [h]) else .isFalse (by simp [h])
  | .error x, .error y =>
    if h : x = y then .isTrue (by rw [h]) else .isFalse (by simp [h])
  | .ok _, .error _ => .isFalse (by simp)
  | .error _, .ok _ => .isFalse (by simp)

inductive CASEvent
  | tipFetch (attempt : Nat) (result : Except String String)
  | opCall (attempt : Nat) (tipUsed : String)
  | sleep (attempt : Nat) (ms : Nat)
deriving Repr, DecidableEq

/-- The backoff the source computes before a retry:
`Math.min(1000, baseDelay * 2^attempt + jitter)` where the jitter is a
random draw in `[0, 0.5 * baseDelay * 2^attempt)`, modelled by the
per-attempt parameter `jitter`. -/
def casDelay (baseDelay : Nat) (jitter : Nat → Nat) (attempt : Nat) : Nat :=
  min 1000 (baseDelay * 2 ^ attempt + jitter attempt)

/-- What one iteration of the `for` loop concluded: return a value, retry
after a conflict (backoff already decided inside the `try`), or an
exception to be handled by the `catch` clause. -/
inductive TryOutcome (T : Type)
  | ret (v : T)
  | conflictRetry
  | thrown (msg : String)

/-- The `for` loop of `executeWithCASRetry`, with `fuel = maxRetries -
attempt` so the loop guard `attempt < maxRetries` is `fuel > 0`.  Each
iteration fetches the tip, issues the operation with it, and then: a 409
on a non-final attempt sleeps the backoff and continues; a 409 on the
final attempt throws a message starting `CAS conflict`; a non-ok status
throws `op error status: text`; any throw is caught and — on the final
attempt — rethrown wrapped as `op failed for pi after N retries: msg`,
otherwise retried, sleeping the backoff unless the message contains the
substring `CAS conflict` (in which case the loop continues with no
sleep). -/
def casGo (pi opName : String) (env : Nat → AttemptEnv T) (maxRetries baseDelay : Nat)
    (jitter : Nat → Nat) : Nat → Nat → List CASEvent → Except String T × List CASEvent
  | _, 0, evs =>
    (.error (opName ++ " failed for " ++ pi ++ " after " ++ toString maxRetries ++ " retries"),
     evs)
  | attempt, fuel + 1, evs =>
    let e := env attempt
    let delay := casDelay baseDelay jitter attempt
    let step :=
      match e.tip with
      | .error m => (TryOutcome.thrown m, evs ++ [CASEvent.tipFetch attempt (.error m)])
      | .ok tip =>
        let evs1 := evs ++ [CASEvent.tipFetch attempt (.ok tip), CASEvent.opCall attempt tip]
        match e.resp tip with
        | .ok v => (TryOutcome.ret v, evs1)
        | .conflict text =>
          if attempt + 1 < maxRetries then (TryOutcome.conflictRetry, evs1)
          else
            (TryOutcome.thrown ("CAS conflict after " ++ toString maxRetries ++ " retries: " ++ text),
             evs1)
        | .errStatus st text =>
          (TryOutcome.thrown (opName ++ " error " ++ toString st ++ ": " ++ text), evs1)
    match step with
    | (.ret v, evs1) => (.ok v, evs1)
    | (.conflictRetry, evs1) =>
      casGo pi opName env maxRetries baseDelay jitter (attempt + 1) fuel
        (evs1 ++ [CASEvent.sleep attempt delay])
    | (.thrown msg, evs1) =>
      if attempt + 1 = maxRetries then
        (.error (opName ++ " failed for " ++ pi ++ " after " ++ toString maxRetries ++
          " retries: " ++ msg), evs1)
      else if listContainsSub "CAS conflict".data msg.data then
        casGo pi opName env maxRetries baseDelay jitter (attempt + 1) fuel evs1
      else
        casGo pi opName env maxRetries baseDelay jitter (attempt + 1) fuel
          (evs1 ++ [CASEvent.sleep attempt delay])
termination_by structural _ fuel _ => fuel

/-- `executeWithCASRetry` (default options `maxRetries = 5`,
`baseDelay = 50`). -/
def executeWithCASRetry (pi opName : String) (env : Nat → AttemptEnv T)
    (maxRetries baseDelay : Nat) (jitter : Nat → Nat) : Except String T × List CASEvent :=
  casGo pi opName env maxRetries baseDelay jitter 0 maxRetries []

/-- The JSON body `appendVersion` posts, given the freshly fetched tip. -/
structure AppendVersionBody where
  expect_tip : String
  components : Option (List (String × String))
  components_remove : Option (List String)
  children_pi_add : Option (List String)
  children_pi_remove : Option (List String)
  note : Option String
deriving Repr, DecidableEq

/-- `AppendVersionRequest`. -/
structure AppendVersionRequest where
  pi : String
  components : Option (List (String × String)) := none
  components_remove : Option (List String) := none
  children_pi_add : Option (List String) := none
  children_pi_remove : Option (List String) := none
  note : Option String := none
deriving Repr, DecidableEq

/-- The operation closure `appendVersion` hands to `executeWithCASRetry`:
the body carries the passed tip as `expect_tip`. -/
def appendVersionOp (req : AppendVersionRequest) (currentTip : String) : AppendVersionBody :=
  { expect_tip := currentTip
    components := req.components
    components_remove := req.components_remove
    children_pi_add := req.children_pi_add
    children_pi_remove := req.children_pi_remove
    note := req.note }

/-- The JSON body posted to the relations endpoint. -/
structure RelationsBody where
  parent_pi : String
  expect_tip : String
  add_children : Option (List String)
  remove_children : Option (List String)
  note : Option String
deriving Repr, DecidableEq

/-- The operation closure of `addChildToParent`. -/
def addChildToParentOp (parentPi childPi : String) (currentTip : String) : RelationsBody :=
  { parent_pi := parentPi
    expect_tip := currentTip
    add_children := some [childPi]
    remove_children := none
    note := some "Added child entity" }

/-- The operation closure of `updateRelations`. -/
def updateRelationsOp (parentPi : String) (addChildren removeChildren : Option (List String))
    (note : Option String) (currentTip : String) : RelationsBody :=
  { parent_pi := parentPi
    expect_tip := currentTip
    add_children := addChildren
    remove_children := removeChildren
    note := note }

-- ===========================================================================
-- Batch coordinator (BatchStateObject: completeFile, alarm)
-- ===========================================================================

/-- `CompletedPart` (the `typeof` format checks of the source always pass
on typed values). -/
structure CompletedPart where
  part_number : Nat
  etag : String
deriving Repr, DecidableEq

/-- `FileState`. -/
structure FileState where
  r2_key : String
  file_name : String
  file_size : Nat
  logical_path : String
  content_type : String
  upload_type : String
  upload_id : Option String := none
  status : String
  completed_at : Option String := none
  cid : Option String := none
deriving Repr, DecidableEq

/-- `BatchState` (the fields the embedded methods read or write). -/
structure BatchState where
  batch_id : String
  status : String
  files : List FileState
  parent_pi : String := ""
  root_pi : Option String := none
  discovery_state : Option DiscoveryState := none
  enqueued_at : Option String := none
deriving Repr, DecidableEq

/-- Result object of `completeFile`. -/
structure CompleteFileResult where
  alreadyCompleted : Bool
  file : FileState
  needsMultipartComplete : Bool
deriving Repr, DecidableEq

/-- Replace the first file with the given `r2_key` (JS mutates the object
`Array.prototype.find` returned — the first match). -/
def replaceFirstFile (k : String) (f2 : FileState) : List FileState → List FileState
  | [] => []
  | f :: fs => if f.r2_key = k then f2 :: fs else f :: replaceFirstFile k f2 fs

/-- `BatchStateObject.completeFile`.  `stored` is the durable storage's
`state` entry; the returned `BatchState` is its value after the call (the
source only calls `storage.put` on the path that mutates).  JS truthiness:
an `undefined` or empty-string `upload_id` and an `undefined` `parts`
array fail validation; a present (even empty) array passes
`Array.isArray`, and the per-part `typeof` checks always pass on typed
values. -/
def completeFile (stored : Option BatchState) (r2Key : String)
    (uploadId : Option String) (parts : Option (List CompletedPart)) (now : String) :
    Except String (BatchState × CompleteFileResult) :=
  match stored with
  | none => .error "Batch not found"
  | some state =>
    match state.files.find? (fun f => f.r2_key == r2Key) with
    | none => .error "File not found in batch"
    | some file =>
      if file.status = "completed" then
        .ok (state, ⟨true, file, false⟩)
      else
        let finish : Except String (BatchState × CompleteFileResult) :=
          let f2 := { file with status := "completed", completed_at := some now }
          .ok ({ state with files := replaceFirstFile r2Key f2 state.files },
               ⟨false, f2, file.upload_type = "multipart"⟩)
        if file.upload_type = "multipart" then
          if uploadId = none ∨ uploadId = some "" ∨ parts = none then
            .error "Missing upload_id or parts for multipart upload"
          else if uploadId ≠ file.upload_id then
            .error "upload_id mismatch"
          else finish
        else finish

/-- Batching/retry constants of the durable object. -/
def DISCOVERY_ALARM_DELAY : Nat := 100
/-- `DISCOVERY_MAX_RETRIES`. -/
def DISCOVERY_MAX_RETRIES : Nat := 5

/-- Environment of one `alarm` invocation: the blob/content oracles for
the step's work, and `fail`, the message of an exception interrupting the
step (`none` when the step completes normally). -/
structure AlarmEnv where
  fail : Option String
  uenv : String → UploadOutcome
  penv : String → CreateResult

/-- Effects of one `alarm` invocation: the value written by
`storage.put('state', ·)` (if any), the relative delay of the
`setAlarm` reschedule (if any), and whether the downstream queue message
was sent. -/
structure AlarmResult where
  put : Option BatchState
  alarmDelay : Option Nat
  enqueued : Bool
deriving Repr, DecidableEq

/-- `BatchStateObject.alarm`.  Guard: no state, status other than
`discovery`, or no discovery state — do nothing.  Normal path: UPLOADING
and PUBLISHING run one `processDiscoveryBatch` (batch sizes 100/100),
persist, and reschedule after 100 ms when work remains; RELATIONSHIPS
establishes relationships, records `root_pi`, advances the batch to
`preprocessing`, persists and enqueues downstream; DONE and ERROR do
nothing.  An exception (modelled as raised at the start of the step's
work) is caught: the error and an incremented `retry_count` are stored and
persisted, and while `retry_count < 5` the alarm is rescheduled after
`min(30000, 1000·2^retry_count)` ms; otherwise the batch status becomes
`failed`, the phase `ERROR`, and no alarm is scheduled. -/
def alarmModel (stored : Option BatchState) (env : AlarmEnv) : AlarmResult :=
  match stored with
  | none => ⟨none, none, false⟩
  | some state =>
    if state.status ≠ "discovery" then ⟨none, none, false⟩
    else
      match state.discovery_state with
      | none => ⟨none, none, false⟩
      | some d =>
        match env.fail with
        | some msg =>
          let rc := d.retry_count.getD 0 + 1
          let d2 := { d with error := some msg, retry_count := some rc }
          if rc < DISCOVERY_MAX_RETRIES then
            ⟨some { state with discovery_state := some d2 },
             some (min 30000 (1000 * 2 ^ rc)), false⟩
          else
            let d3 := { d2 with phase := DiscoveryPhase.ERROR }
            let st2 := { state with status := "failed", discovery_state := some d3 }
            ⟨some st2, none, false⟩
        | none =>
          if d.phase = .UPLOADING ∨ d.phase = .PUBLISHING then
            let r := processDiscoveryBatch env.uenv env.penv 100 100 d
            ⟨some { state with discovery_state := some r.1 },
             if r.2 then some DISCOVERY_ALARM_DELAY else none, false⟩
          else if d.phase = .RELATIONSHIPS then
            let r := establishRelationships d (some state.parent_pi)
            let rootPi := alookup "/" r.1.node_pis
            let st2 := { state with
              discovery_state := some r.1
              root_pi := rootPi
              status := "preprocessing" }
            ⟨some st2, none, true⟩
          else ⟨none, none, false⟩

-- ===========================================================================
-- Concrete scenario inputs
-- ===========================================================================

/-- A text file entry for scenarios. -/
def scnFile (key name : String) : QueueFileInfo :=
  { r2_key := key, file_name := name }

/-- The end-to-end scenario manifest: directories `/`, `/a`, `/a/b`, each
with one text file. -/
def scnManifest : BatchManifest :=
  { directories :=
      [ { directory_path := "/", files := [scnFile "kroot" "r.txt"] }
      , { directory_path := "/a", files := [scnFile "ka" "a.txt"] }
      , { directory_path := "/a/b", files := [scnFile "kab" "b.txt"] } ] }

/-- Blob/content oracle where every upload succeeds. -/
def scnUploadOk : String → UploadOutcome := fun k => .ok ("cid_" ++ k)

/-- Entity-creation oracle. -/
def scnCreate : String → CreateResult :=
  fun p => { pi := "pi_" ++ p, tip := "tip_" ++ p, ver := 1 }

-- ===========================================================================
-- Proofs: C8 (completeFile idempotence)
-- ===========================================================================

theorem find_replaceFirstFile (k : String) (f2 : FileState) (hk : f2.r2_key = k) :
    ∀ files : List FileState, (files.find? (fun f => f.r2_key == k)).isSome →
      (replaceFirstFile k f2 files).find? (fun f => f.r2_key == k) = some f2 := by
  intro files
  induction files with
  | nil => intro h; simp [List.find?] at h
  | cons f fs ih =>
    intro h
    by_cases hf : f.r2_key = k
    · simp [replaceFirstFile, hf, List.find?, hk]
    · have hb : (f.r2_key == k) = false := beq_eq_false_iff_ne.mpr hf
      simp only [List.find?, hb] at h ⊢
      simp only [replaceFirstFile, if_neg hf, List.find?, hb]
      exact ih h

theorem completeFile_ok_cases (s : BatchState) (k : String) (u : Option String)
    (p : Option (List CompletedPart)) (now : String) (s' : BatchState)
    (r : CompleteFileResult) (h : completeFile (some s) k u p now = .ok (s', r)) :
    ∃ f, s.files.find? (fun f => f.r2_key == k) = some f ∧
      ((f.status = "completed" ∧ s' = s ∧ r = ⟨true, f, false⟩) ∨
       (f.status ≠ "completed" ∧
         s' = { s with files := replaceFirstFile k { f with status := "completed", completed_at := some now } s.files } ∧
         r = ⟨false, { f with status := "completed", completed_at := some now }, f.upload_type = "multipart"⟩)) := by
  simp only [completeFile] at h
  split at h
  · exact absurd h (by simp)
  next f hfind =>
    refine ⟨f, hfind, ?_⟩
    split at h
    next hc =>
      injection h with h1
      exact Or.inl ⟨hc, (congrArg Prod.fst h1).symm, (congrArg Prod.snd h1).symm⟩
    next hc =>
      split at h
      next hm =>
        split at h
        · exact absurd h (by simp)
        split at h
        · exact absurd h (by simp)
        injection h with h1
        exact Or.inr ⟨hc, (congrArg Prod.fst h1).symm, (congrArg Prod.snd h1).symm⟩
      next hm =>
        injection h with h1
        exact Or.inr ⟨hc, (congrArg Prod.fst h1).symm, (congrArg Prod.snd h1).symm⟩

theorem completeFile_already (s : BatchState) (k : String) (u : Option String)
    (p : Option (List CompletedPart)) (now : String) (f : FileState)
    (hf : s.files.find? (fun f => f.r2_key == k) = some f)
    (hc : f.status = "completed") :
    completeFile (some s) k u p now = .ok (s, ⟨true, f, false⟩) := by
  simp only [completeFile, hf, if_pos hc]

theorem completeFile_marks (s : BatchState) (k : String) (u : Option String)
    (p : Option (List CompletedPart)) (now : String) (s' : BatchState)
    (r : CompleteFileResult) (h : completeFile (some s) k u p now = .ok (s', r))
    (hnew : r.alreadyCompleted = false) :
    s'.files.find? (fun f => f.r2_key == k) = some r.file ∧ r.file.status = "completed" := by
  obtain ⟨f, hfind, hcases⟩ := completeFile_ok_cases s k u p now s' r h
  rcases hcases with ⟨hc, hs, hr⟩ | ⟨hc, hs, hr⟩
  · rw [hr] at hnew; simp at hnew
  · have hk : f.r2_key = k := by
      have := List.find?_some hfind
      simpa using this
    subst hs; subst hr
    constructor
    · simpa using find_replaceFirstFile k
        { f with status := "completed", completed_at := some now } hk s.files
        (by rw [hfind]; rfl)
    · rfl

theorem completeFile_idem (s : BatchState) (k : String) (u : Option String)
    (p : Option (List CompletedPart)) (now now2 : String) (s1 : BatchState)
    (r1 : CompleteFileResult) (h : completeFile (some s) k u p now = .ok (s1, r1)) :
    ∃ f2, completeFile (some s1) k u p now2 = .ok (s1, ⟨true, f2, false⟩) := by
  obtain ⟨f, hfind, hcases⟩ := completeFile_ok_cases s k u p now s1 r1 h
  rcases hcases with ⟨hc, hs, _⟩ | ⟨hc, hs, _⟩
  · subst hs
    exact ⟨f, completeFile_already s1 k u p now2 f hfind hc⟩
  · have hk : f.r2_key = k := by
      have := List.find?_some hfind
      simpa using this
    subst hs
    refine ⟨{ f with status := "completed", completed_at := some now },
      completeFile_already _ k u p now2 _ ?_ rfl⟩
    simpa using find_replaceFirstFile k
      { f with status := "completed", completed_at := some now } hk s.files
      (by rw [hfind]; rfl)

/-- C8: `completeFile` is idempotent.  (i) When the file with the given
r2 key is already completed, the call succeeds with
`alreadyCompleted = true`, performs no state write (the stored state it
returns is exactly the input state), and skips validation.  (ii) A first
successful completing call marks the file completed.  (iii) After any
successful call, calling again with the same arguments succeeds with
`alreadyCompleted = true` and leaves the stored state exactly as the
first call left it. -/
theorem claim_C8_completeFile_idempotent :
    (∀ (s : BatchState) (k : String) (u : Option String)
        (p : Option (List CompletedPart)) (now : String) (f : FileState),
        s.files.find? (fun f => f.r2_key == k) = some f → f.status = "completed" →
        completeFile (some s) k u p now = .ok (s, ⟨true, f, false⟩)) ∧
    (∀ (s : BatchState) (k : String) (u : Option String)
        (p : Option (List CompletedPart)) (now : String) (s' : BatchState)
        (r : CompleteFileResult),
        completeFile (some s) k u p now = .ok (s', r) → r.alreadyCompleted = false →
        s'.files.find? (fun f => f.r2_key == k) = some r.file ∧
          r.file.status = "completed") ∧
    (∀ (s : BatchState) (k : String) (u : Option String)
        (p : Option (List CompletedPart)) (now now2 : String) (s1 : BatchState)
        (r1 : CompleteFileResult),
        completeFile (some s) k u p now = .ok (s1, r1) →
        ∃ f2, completeFile (some s1) k u p now2 = .ok (s1, ⟨true, f2, false⟩)) :=
  ⟨completeFile_already, completeFile_marks, completeFile_idem⟩

/-- A batch state with one already-completed simple-upload file. -/
def w8file : FileState :=
  { r2_key := "k1", file_name := "a.txt", file_size := 1, logical_path := "/a.txt",
    content_type := "text/plain", upload_type := "simple", status := "completed" }

/-- Concrete state for the C8 witness. -/
def w8state : BatchState :=
  { batch_id := "b1", status := "uploading", files := [w8file] }

/-- C8 witness: re-completing the already-completed file of `w8state`
returns success with `alreadyCompleted = true` and the unchanged state. -/
theorem claim_C8_witness :
    completeFile (some w8state) "k1" none none "T2" = .ok (w8state, ⟨true, w8file, false⟩) :=
  claim_C8_completeFile_idempotent.1 w8state "k1" none none "T2" w8file (by decide) (by decide)

-- ===========================================================================
-- Proofs: C9 (alarm step-failure retry budget)
-- ===========================================================================

/-- The discovery state the catch clause of `alarm` persists: the error
message and the incremented retry counter. -/
def errDiscState (d : DiscoveryState) (msg : String) : DiscoveryState :=
  { d with error := some msg, retry_count := some (d.retry_count.getD 0 + 1) }

/-- C9: a discovery step that raises makes the `alarm` handler increment
the retry counter and persist it with the error; while the new count is
below `DISCOVERY_MAX_RETRIES = 5` it reschedules itself after
`min(30000, 1000·2^count)` ms (exponential backoff from a 1 s base capped
at 30 s); once the budget is exhausted it persists the batch status
`failed` with discovery phase `ERROR` and schedules no alarm. -/
theorem claim_C9_alarm_retry_budget :
    ∀ (state : BatchState) (env : AlarmEnv) (msg : String) (d : DiscoveryState),
      state.status = "discovery" → state.discovery_state = some d →
      env.fail = some msg →
      (d.retry_count.getD 0 + 1 < DISCOVERY_MAX_RETRIES →
        alarmModel (some state) env =
          ⟨some { state with discovery_state := some (errDiscState d msg) },
           some (min 30000 (1000 * 2 ^ (d.retry_count.getD 0 + 1))), false⟩) ∧
      (DISCOVERY_MAX_RETRIES ≤ d.retry_count.getD 0 + 1 →
        alarmModel (some state) env =
          ⟨some { state with status := "failed", discovery_state := some { errDiscState d msg with phase := .ERROR } },
           none, false⟩) := by
  intro state env msg d hst hds hf
  constructor
  · intro hlt
    simp [alarmModel, hst, hds, hf, if_pos hlt, errDiscState]
  · intro hge
    have hn : ¬ d.retry_count.getD 0 + 1 < DISCOVERY_MAX_RETRIES := by omega
    simp [alarmModel, hst, hds, hf, if_neg hn, errDiscState]

/-- Discovery state for the C9 witness (empty manifest tree, no prior
retries). -/
def w9d : DiscoveryState :=
  buildDiscoveryTree { directories := [] }

/-- Batch state for the C9 witness. -/
def w9state : BatchState :=
  { batch_id := "b9", status := "discovery", files := [], discovery_state := some w9d }

/-- Alarm environment for the C9 witness: the step raises. -/
def w9env : AlarmEnv :=
  { fail := some "boom", uenv := fun _ => .err, penv := scnCreate }

/-- C9 witness: a first failure persists `retry_count = 1` and reschedules
after `min(30000, 1000·2^1) = 2000` ms. -/
theorem claim_C9_witness :
    alarmModel (some w9state) w9env =
      ⟨some { w9state with discovery_state := some (errDiscState w9d "boom") },
       some 2000, false⟩ := by
  have h := (claim_C9_alarm_retry_budget w9state w9env "boom" w9d (by decide) (by decide)
    (by decide)).1 (by decide)
  simpa using h

-- ===========================================================================
-- Proofs: C2 (RELATIONSHIPS phase wires no per-directory back-links)
-- ===========================================================================

/-- The final state of the publishing loop on the `/`, `/a`, `/a/b`
scenario: everything published, phase RELATIONSHIPS. -/
def scnPublished : DiscoveryState :=
  syncPublishLoop scnCreate 20 (syncUploadLoop scnUploadOk 20 (buildDiscoveryTree scnManifest))

/-- C2 counterexample: in the `/`, `/a`, `/a/b` scenario the directory
`/a` is published with one child and `relationships_set` never set, yet
`establishRelationships` (no external parent) issues zero relation-update
calls and still transitions the phase to DONE — so no back-link setting
`parent_pi` on `/a/b` ever happens inside this repository. -/
theorem claim_C2_counterexample :
    (alookup "/a" scnPublished.nodes).map
        (fun n => (n.published, n.children_paths, n.relationships_set)) =
      some (true, ["/a/b"], none) ∧
    (establishRelationships scnPublished none).2 = [] ∧
    (establishRelationships scnPublished none).1.phase = .DONE := by
  refine ⟨by decide, by decide, by decide⟩

/-- C2 amended: `establishRelationships` never issues per-directory
back-link updates: every relation call it makes attaches the root pi to
the externally supplied parent (there is at most one such call, and none
when no external parent is given); the nodes map — including every
`relationships_set` flag — is left unchanged and the phase becomes
DONE. -/
theorem claim_C2_relationships_only_external_root :
    ∀ (s : DiscoveryState) (parentPi : Option String),
      (establishRelationships s parentPi).1.nodes = s.nodes ∧
      (establishRelationships s parentPi).1.phase = .DONE ∧
      (parentPi = none → (establishRelationships s parentPi).2 = []) ∧
      (∀ c ∈ (establishRelationships s parentPi).2,
        parentPi = some c.1 ∧ alookup "/" s.node_pis = some c.2) := by
  intro s parentPi
  refine ⟨rfl, rfl, ?_, ?_⟩
  · intro h; subst h; rfl
  · intro c hc
    cases hp : parentPi with
    | none =>
      rw [hp] at hc
      simp [establishRelationships] at hc
    | some pp =>
      rw [hp] at hc
      cases hr : alookup "/" s.node_pis with
      | none =>
        simp only [establishRelationships, hr] at hc
        simp at hc
      | some rootPi =>
        simp only [establishRelationships, hr] at hc
        split at hc
        · simp at hc
          subst hc
          exact ⟨rfl, rfl⟩
        · simp at hc

/-- C2 amended-claim witness: on the published scenario state with an
external parent `"EXT"`, the single call attaches the root. -/
theorem claim_C2_witness :
    (establishRelationships scnPublished (some "EXT")).1.nodes = scnPublished.nodes ∧
    (establishRelationships scnPublished (some "EXT")).1.phase = .DONE ∧
    ∀ c ∈ (establishRelationships scnPublished (some "EXT")).2,
      (some "EXT" : Option String) = some c.1 ∧ alookup "/" scnPublished.node_pis = some c.2 := by
  have h := claim_C2_relationships_only_external_root scnPublished (some "EXT")
  exact ⟨h.1, h.2.1, h.2.2.2⟩

-- ===========================================================================
-- Proofs: association map and per-file upload lemmas (shared)
-- ===========================================================================

/-- The file stored at node `p`, index `i`. -/
def getFileAt (p : String) (i : Nat) (s : DiscoveryState) : Option DiscoveryTextFile :=
  (alookup p s.nodes).bind fun n => n.text_files[i]?

theorem aupdate_cons {α : Type} (k : String) (f : α → α) (pr : String × α)
    (rest : List (String × α)) :
    aupdate k f (pr :: rest) =
      (if pr.1 = k then (pr.1, f pr.2) else pr) :: aupdate k f rest := rfl

theorem alookup_cons {α : Type} (q : String) (pr : String × α) (rest : List (String × α)) :
    alookup q (pr :: rest) = if pr.1 = q then some pr.2 else alookup q rest := rfl

theorem alookup_aupdate_ne {α : Type} (k q : String) (f : α → α) (m : List (String × α))
    (h : q ≠ k) : alookup q (aupdate k f m) = alookup q m := by
  induction m with
  | nil => rfl
  | cons pr rest ih =>
    rw [aupdate_cons, alookup_cons, alookup_cons]
    by_cases hpk : pr.1 = k
    · have hpq : pr.1 ≠ q := by rw [hpk]; exact fun hh => h hh.symm
      rw [if_pos hpk]
      simp only [hpq, if_neg, ite_false]
      exact ih
    · rw [if_neg hpk]
      by_cases hpq : pr.1 = q
      · rw [if_pos hpq, if_pos hpq]
      · rw [if_neg hpq, if_neg hpq]
        exact ih

theorem alookup_aupdate_self {α : Type} (k : String) (f : α → α) (m : List (String × α)) :
    alookup k (aupdate k f m) = (alookup k m).map f := by
  induction m with
  | nil => rfl
  | cons pr rest ih =>
    rw [aupdate_cons, alookup_cons, alookup_cons]
    by_cases hpk : pr.1 = k
    · simp [if_pos hpk]
    · simp only [if_neg hpk]
      exact ih

theorem alookup_mem {α : Type} (p : String) (n : α) :
    ∀ m : List (String × α), alookup p m = some n → (p, n) ∈ m := by
  intro m
  induction m with
  | nil => intro h; simp [alookup] at h
  | cons pr rest ih =>
    intro h
    rw [alookup_cons] at h
    by_cases hp : pr.1 = p
    · rw [if_pos hp] at h
      injection h with h1
      have hpr : pr = (p, n) := Prod.ext hp h1
      rw [← hpr]
      exact List.mem_cons_self pr rest
    · rw [if_neg hp] at h
      exact List.mem_cons_of_mem _ (ih h)

theorem setCidAt_get_ne (c : String) (i j : Nat) (h : i ≠ j) :
    ∀ files : List DiscoveryTextFile, (setCidAt c files j)[i]? = files[i]? := by
  intro files
  induction files generalizing i j with
  | nil => simp [setCidAt]
  | cons f fs ih =>
    cases j with
    | zero =>
      cases i with
      | zero => exact absurd rfl h
      | succ i2 => simp [setCidAt]
    | succ j2 =>
      cases i with
      | zero => simp [setCidAt]
      | succ i2 => simpa [setCidAt] using ih i2 j2 (by omega)

theorem applyUpload_missing (env : String → UploadOutcome) (s : DiscoveryState)
    (p : String) (i : Nat) (n : DiscoveryNode) (f : DiscoveryTextFile)
    (hn : alookup p s.nodes = some n) (hf : n.text_files[i]? = some f)
    (he : env f.r2_key = .missing) : applyUpload env s (p, i) = s := by
  simp [applyUpload, hn, hf, he]

theorem applyUpload_phase (env : String → UploadOutcome) (s : DiscoveryState)
    (item : String × Nat) : (applyUpload env s item).phase = s.phase := by
  unfold applyUpload
  split
  · rfl
  split
  · rfl
  split
  · rfl
  · rfl
  · rfl

theorem applyUpload_getFileAt_ne (env : String → UploadOutcome) (s : DiscoveryState)
    (p : String) (i : Nat) (q : String) (j : Nat) (h : (q, j) ≠ (p, i)) :
    getFileAt p i (applyUpload env s (q, j)) = getFileAt p i s := by
  unfold applyUpload
  split
  · rfl
  next n hn =>
    split
    · rfl
    next f hf =>
      split
      · rfl
      all_goals
        unfold getFileAt
        by_cases hq : q = p
        · subst hq
          have hij : i ≠ j := fun hh => h (by rw [hh])
          rw [alookup_aupdate_self]
          rw [hn]
          simp [setCidAt_get_ne _ _ _ hij]
        · rw [alookup_aupdate_ne _ _ _ _ (fun hh => hq hh.symm)]

theorem foldl_upload_missing (env : String → UploadOutcome) (p : String) (i : Nat)
    (f : DiscoveryTextFile) (he : env f.r2_key = .missing) :
    ∀ (items : List (String × Nat)) (s : DiscoveryState),
      getFileAt p i s = some f →
      getFileAt p i (items.foldl (applyUpload env) s) = some f := by
  intro items
  induction items with
  | nil => intro s hs; exact hs
  | cons it rest ih =>
    intro s hs
    by_cases hit : it = (p, i)
    · subst hit
      obtain ⟨n, hn, hf⟩ : ∃ n, alookup p s.nodes = some n ∧ n.text_files[i]? = some f := by
        unfold getFileAt at hs
        cases hl : alookup p s.nodes with
        | none => rw [hl] at hs; simp at hs
        | some n => rw [hl] at hs; exact ⟨n, rfl, by simpa using hs⟩
      rw [List.foldl_cons, applyUpload_missing env s p i n f hn hf he]
      exact ih s hs
    · rw [List.foldl_cons]
      refine ih _ ?_
      cases it with
      | mk q j =>
        rw [applyUpload_getFileAt_ne env s p i q j hit]
        exact hs

theorem foldl_upload_phase (env : String → UploadOutcome) :
    ∀ (items : List (String × Nat)) (s : DiscoveryState),
      (items.foldl (applyUpload env) s).phase = s.phase := by
  intro items
  induction items with
  | nil => intro s; rfl
  | cons it rest ih =>
    intro s
    rw [List.foldl_cons, ih, applyUpload_phase]

theorem mem_getFilesNeedingUpload (s : DiscoveryState) (p : String) (i : Nat)
    (n : DiscoveryNode) (f : DiscoveryTextFile) (hn : alookup p s.nodes = some n)
    (hf : n.text_files[i]? = some f) (hc : f.cid = none) :
    (p, i) ∈ getFilesNeedingUpload s := by
  unfold getFilesNeedingUpload
  rw [List.mem_flatMap]
  refine ⟨(p, n), alookup_mem p n s.nodes hn, ?_⟩
  rw [List.mem_filterMap]
  refine ⟨(i, f), ?_, by simp [hc]⟩
  rw [List.mk_mem_enum_iff_getElem?]
  exact hf

-- ===========================================================================
-- Proofs: C6 (a missing blob keeps a file pending forever)
-- ===========================================================================

/-- C6 amended: a file whose blob-store `get` returns `null` is left
untouched by `uploadFileBatch` — its `cid` stays unset and
`files_uploaded` is not incremented for it — so after the step it still
counts as needing upload and the phase does not advance: the file is
selected again by every later UPLOADING step while the blob stays absent,
and the phase cannot reach PUBLISHING while such a file remains. -/
theorem claim_C6_missing_blob_retries_forever :
    ∀ (env : String → UploadOutcome) (bs : Nat) (s : DiscoveryState)
      (p : String) (i : Nat) (n : DiscoveryNode) (f : DiscoveryTextFile),
      alookup p s.nodes = some n → n.text_files[i]? = some f → f.cid = none →
      env f.r2_key = .missing → (p, i) ∈ (getFilesNeedingUpload s).take bs →
      getFileAt p i (uploadFileBatch env bs s).1 = some f ∧
      (p, i) ∈ getFilesNeedingUpload (uploadFileBatch env bs s).1 ∧
      (uploadFileBatch env bs s).1.phase = s.phase := by
  intro env bs s p i n f hn hf hc he hmem
  have hpend : ¬ ((getFilesNeedingUpload s).take bs).isEmpty := by
    intro hz
    rw [List.isEmpty_iff] at hz
    rw [hz] at hmem
    simp at hmem
  have hstart : getFileAt p i s = some f := by
    unfold getFileAt
    rw [hn]
    simpa using hf
  have hkeep : getFileAt p i (((getFilesNeedingUpload s).take bs).foldl (applyUpload env) s) = some f :=
    foldl_upload_missing env p i f he _ s hstart
  obtain ⟨n1, hn1, hf1⟩ : ∃ n1, alookup p (((getFilesNeedingUpload s).take bs).foldl (applyUpload env) s).nodes = some n1 ∧ n1.text_files[i]? = some f := by
    unfold getFileAt at hkeep
    cases hl : alookup p (((getFilesNeedingUpload s).take bs).foldl (applyUpload env) s).nodes with
    | none => rw [hl] at hkeep; simp at hkeep
    | some n1 => rw [hl] at hkeep; exact ⟨n1, rfl, by simpa using hkeep⟩
  have hmem1 : (p, i) ∈ getFilesNeedingUpload (((getFilesNeedingUpload s).take bs).foldl (applyUpload env) s) :=
    mem_getFilesNeedingUpload _ p i n1 f hn1 hf1 hc
  have hne1 : ¬ (getFilesNeedingUpload (((getFilesNeedingUpload s).take bs).foldl (applyUpload env) s)).isEmpty := by
    intro hz
    rw [List.isEmpty_iff] at hz
    rw [hz] at hmem1
    simp at hmem1
  unfold uploadFileBatch
  rw [if_neg hpend]
  simp only [if_neg hne1]
  exact ⟨hkeep, hmem1, foldl_upload_phase env _ s⟩

/-- One-file manifest for the C6 counterexample. -/
def w6manifest : BatchManifest :=
  { directories := [{ directory_path := "/", files := [scnFile "k6" "a.txt"] }] }

/-- Blob oracle whose `get` always returns `null`. -/
def w6blobMissing : String → UploadOutcome := fun _ => .missing

/-- The root node `buildDiscoveryTree w6manifest` produces. -/
def w6node : DiscoveryNode :=
  { path := "/", depth := 0,
    text_files := [{ filename := "a.txt", r2_key := "k6" }] }

/-- C6 counterexample: with the blob absent, after the upload step the
file still counts as needing upload and the phase is still UPLOADING — it
was not treated as "nothing to upload": the step neither consumed it nor
let the phase reach PUBLISHING. -/
theorem claim_C6_counterexample :
    ("/", 0) ∈ getFilesNeedingUpload (uploadFileBatch w6blobMissing 100 (buildDiscoveryTree w6manifest)).1 ∧
    (uploadFileBatch w6blobMissing 100 (buildDiscoveryTree w6manifest)).1.phase = .UPLOADING := by
  refine ⟨by decide, by decide⟩

/-- C6 amended-claim witness at the concrete one-file manifest. -/
theorem claim_C6_witness :
    getFileAt "/" 0 (uploadFileBatch w6blobMissing 100 (buildDiscoveryTree w6manifest)).1 =
      some { filename := "a.txt", r2_key := "k6" } ∧
    ("/", 0) ∈ getFilesNeedingUpload (uploadFileBatch w6blobMissing 100 (buildDiscoveryTree w6manifest)).1 ∧
    (uploadFileBatch w6blobMissing 100 (buildDiscoveryTree w6manifest)).1.phase =
      (buildDiscoveryTree w6manifest).phase :=
  claim_C6_missing_blob_retries_forever w6blobMissing 100 (buildDiscoveryTree w6manifest)
    "/" 0 w6node { filename := "a.txt", r2_key := "k6" }
    (by decide) (by decide) (by decide) (by decide) (by decide)

-- ===========================================================================
-- Proofs: C10 (chunk text vs. recorded range) and C4 counterexample
-- ===========================================================================

/-- Chunking configuration with `min = max = 4`, no overlap (the adaptive
size clamps to 4). -/
def cfg4 : ChunkingConfig :=
  { target_chunks := 50, min_chunk_size := 4, max_chunk_size := 4, overlap := 0 }

/-- 9-character input whose oversized first part forces a recursive
sub-split: the `\n` separator between the sub-split and the next chunk is
covered by no chunk. -/
def gapText : List Char := "aaaaaa\nbb".data

/-- 16-character input that hits the double `position` advance of the
oversized-part branch twice: later chunk ranges are shifted past their
text, the final range ending at 23 in a 16-character string. -/
def shiftText : List Char := "aaaaaa\nbbbbbb\ncc".data

/-- C10: the code contradicts its own `ChunkResult` documentation
(`char_start`/`char_end` are positions of the chunk's text in the original
file): on `shiftText` the third chunk is `"bbbb"` with recorded range
`[14, 18)`, but the slice of the input at `[14, 18)` is `"cc"` — the
oversized-part branches advance `position` by `partWithSep.length` and the
loop bottom advances it again. -/
theorem claim_C10_chunk_range_mismatch :
    (chunkText shiftText cfg4).map (fun c => (String.mk c.text, c.char_start, c.char_end)) =
      [("aaaa", 0, 4), ("aa", 4, 6), ("bbbb", 14, 18), ("bb", 18, 20), ("cc", 21, 23)] ∧
    (∃ c ∈ chunkText shiftText cfg4,
      c.text ≠ sliceList shiftText c.char_start c.char_end) ∧
    shiftText.length = 16 := by
  refine ⟨by decide, by decide, by decide⟩

/-- The coverage property claim C4 asserts of the returned ranges
(definition follows the claim's words, for comparison with the code): the
chunk list is non-empty, the first chunk starts at 0, each range starts no
later than the previous range's end (consecutive ranges meet or overlap),
and the last range ends exactly at the text length.  `rangesMeet` is the
meet-or-overlap condition on consecutive ranges. -/
def rangesMeet : List ChunkResult → Bool
  | [] => true
  | [_] => true
  | a :: b :: t => (b.char_start ≤ a.char_end) && rangesMeet (b :: t)

def claimedRangeCover : List ChunkResult → Nat → Prop
  | [], _ => False
  | c :: rest, len =>
    c.char_start = 0 ∧
    rangesMeet (c :: rest) = true ∧
    ((c :: rest).getLastD c).char_end = len

instance : ∀ (cs : List ChunkResult) (len : Nat), Decidable (claimedRangeCover cs len)
  | [], _ => .isFalse (fun h => h)
  | c :: rest, len =>
    inferInstanceAs (Decidable (c.char_start = 0 ∧
      rangesMeet (c :: rest) = true ∧
      ((c :: rest).getLastD c).char_end = len))

/-- C4 counterexample: both inputs are at or above `min_chunk_size = 4`,
yet the returned ranges do not cover the text: on `gapText` the ranges are
`[0,4) [4,6) [7,9)` — position 6 (the separator) is in no chunk, so
consecutive ranges neither meet nor overlap; on `shiftText` the last range
ends at 23 ≠ 16. -/
theorem claim_C4_counterexample :
    (chunkText gapText cfg4).map (fun c => (c.char_start, c.char_end)) =
      [(0, 4), (4, 6), (7, 9)] ∧
    cfg4.min_chunk_size ≤ gapText.length ∧
    ¬ claimedRangeCover (chunkText gapText cfg4) gapText.length ∧
    cfg4.min_chunk_size ≤ shiftText.length ∧
    ¬ claimedRangeCover (chunkText shiftText cfg4) shiftText.length := by
  refine ⟨by decide, by decide, by decide, by decide, by decide⟩

-- ===========================================================================
-- Proofs: C4 amended (chunking always yields chunks starting at 0)
-- ===========================================================================

/-- Goodness of an internal chunk list: non-empty, first chunk starts at
position 0. -/
def goodStart (l : List IChunk) : Prop :=
  ∃ hd t, l = hd :: t ∧ hd.char_start = 0

theorem exists_append_trans {α : Type} (chunks X R : List α)
    (h : ∃ suf, R = (chunks ++ X) ++ suf) : ∃ suf, R = chunks ++ suf := by
  obtain ⟨s, hs⟩ := h
  exact ⟨X ++ s, by rw [hs, List.append_assoc]⟩


theorem cls_good (text : List Char) (cs ov : Nat) (ht : text ≠ []) :
    goodStart (characterLevelSplit text cs ov) := by
  have hlen : 0 < text.length := List.length_pos.mpr ht
  unfold characterLevelSplit
  obtain ⟨n, hn⟩ : ∃ n, text.length = n + 1 := ⟨text.length - 1, by omega⟩
  rw [hn]
  rw [clsGo]
  rw [if_pos (by omega : 0 < text.length)]
  split <;> (dsimp only; split) <;> exact ⟨_, _, rfl, rfl⟩

theorem splitOnFuel_part_le (sep : List Char) :
    ∀ (f : Nat) (l : List Char), ∀ p ∈ splitOnFuel sep f l, p.length ≤ l.length := by
  intro f
  induction f with
  | zero =>
    intro l p hp
    cases l with
    | nil => simp [splitOnFuel] at hp; simp [hp]
    | cons c cs => simp [splitOnFuel] at hp; simp [hp]
  | succ f ih =>
    intro l p hp
    cases l with
    | nil => simp [splitOnFuel] at hp; simp [hp]
    | cons c cs =>
      rw [splitOnFuel] at hp
      split at hp
      · rcases List.mem_cons.mp hp with h0 | hrest
        · simp [h0]
        · have := ih _ p hrest
          have hd : ((c :: cs).drop sep.length).length ≤ (c :: cs).length := by
            rw [List.length_drop]; omega
          omega
      · cases hsp : splitOnFuel sep f cs with
        | nil => rw [hsp] at hp; simp at hp; simp [hp]
        | cons h t =>
          rw [hsp] at hp
          rcases List.mem_cons.mp hp with h0 | hrest
          · have hh : h ∈ splitOnFuel sep f cs := by rw [hsp]; exact List.mem_cons_self _ _
            have := ih cs h hh
            subst h0
            simp
            omega
          · have hmem : p ∈ splitOnFuel sep f cs := by rw [hsp]; exact List.mem_cons_of_mem _ hrest
            have := ih cs p hmem
            simp
            omega


theorem splitLoop_append (cs ov : Nat) (sep : List Char) (remaining : List (List Char)) :
    ∀ (fuel : Nat) (parts : List (List Char)) (chunks : List IChunk)
      (cur : List Char) (cst pos : Nat),
      ∃ suf, splitLoop fuel cs ov sep remaining parts chunks cur cst pos = chunks ++ suf := by
  intro fuel
  induction fuel with
  | zero => intro parts chunks cur cst pos; exact ⟨[], by simp [splitLoop]⟩
  | succ fuel ih =>
    intro parts chunks cur cst pos
    cases parts with
    | nil =>
      by_cases hcur : cur.isEmpty
      · exact ⟨[], by simp [splitLoop, hcur]⟩
      · exact ⟨[⟨cur, cst, cst + cur.length⟩], by simp [splitLoop, hcur]⟩
    | cons part parts =>
      rw [splitLoop]
      dsimp only
      repeat' split
      all_goals first
        | exact ih _ _ _ _ _
        | exact exists_append_trans _ _ _ (ih _ _ _ _ _)

theorem splitOnFuel_length_le (sep : List Char) :
    ∀ (f : Nat) (l : List Char), (splitOnFuel sep f l).length ≤ l.length + 1 := by
  intro f
  induction f with
  | zero =>
    intro l
    cases l with
    | nil => simp [splitOnFuel]
    | cons c cs => simp [splitOnFuel]
  | succ f ih =>
    intro l
    cases l with
    | nil => simp [splitOnFuel]
    | cons c cs =>
      rw [splitOnFuel]
      split
      · have := ih ((c :: cs).drop sep.length)
        have hd : ((c :: cs).drop sep.length).length ≤ cs.length := by
          rw [List.length_drop]
          next hcond =>
            have : 1 ≤ sep.length := by
              cases sep with
              | nil => simp at hcond
              | cons a b => simp
            simp
            omega
        simp only [List.length_cons]
        omega
      · cases hsp : splitOnFuel sep f cs with
        | nil => simp
        | cons h t =>
          have := ih cs
          rw [hsp] at this
          simp only [List.length_cons] at this ⊢
          omega

theorem chunkFuel_mono_left {a b : Nat} (k : Nat) (h : a ≤ b) :
    chunkFuel a k ≤ chunkFuel b k := by
  unfold chunkFuel
  have := Nat.mul_le_mul_right k (by omega : a + 4 ≤ b + 4)
  omega

theorem head_of_cons_append {α : Type} (c0 : α) (t0 suf : List α) (hd : α) (t : List α)
    (h : (c0 :: t0) ++ suf = hd :: t) : hd = c0 := by
  simp at h
  exact h.1.symm

theorem cls_head0 (text : List Char) (cs ov : Nat) (hd : IChunk) (t : List IChunk)
    (h : characterLevelSplit text cs ov = hd :: t) : hd.char_start = 0 := by
  by_cases hnil : text = []
  · subst hnil
    simp [characterLevelSplit, clsGo] at h
  · obtain ⟨hd2, t2, heq, h0⟩ := cls_good text cs ov hnil
    rw [heq] at h
    injection h with h1 h2
    rw [← h1]
    exact h0

mutual

theorem rc_goodStart : ∀ (fuel cs ov : Nat) (text : List Char) (seps : List (List Char)),
    chunkFuel text.length seps.length ≤ fuel →
    goodStart (recursiveChunk fuel cs ov text seps)
  | 0, cs, ov, text, seps => by
    intro h
    exfalso
    unfold chunkFuel at h
    omega
  | fuel + 1, cs, ov, text, seps => by
    intro h
    cases seps with
    | nil =>
      rw [recursiveChunk]
      split
      · exact ⟨_, _, rfl, rfl⟩
      next hfit =>
        exact cls_good text cs ov (by intro hnil; rw [hnil] at hfit; simp at hfit)
    | cons sep rest =>
      rw [recursiveChunk]
      split
      · exact ⟨_, _, rfl, rfl⟩
      next hfit =>
        dsimp only
        have hexp : chunkFuel text.length (rest.length + 1) =
            chunkFuel text.length rest.length + (text.length + 4) := by
          unfold chunkFuel
          ring
        split
        · apply rc_goodStart fuel cs ov text rest
          simp only [List.length_cons] at h
          omega
        next hne =>
          cases hr : splitBySeparator fuel cs ov text sep rest with
          | nil => rw [hr] at hne; simp at hne
          | cons hd2 t2 =>
            refine ⟨hd2, t2, rfl, ?_⟩
            apply sbs_head0 fuel cs ov text sep rest ?_ hd2 t2 hr
            simp only [List.length_cons] at h
            unfold chunkFuel at h
            have e2 : (text.length + 4) * (rest.length + 1 + 1) =
                (text.length + 4) * (rest.length + 1) + (text.length + 4) := by ring
            omega
termination_by structural fuel _ _ _ _ => fuel

theorem sbs_head0 : ∀ (fuel cs ov : Nat) (text sep : List Char) (remaining : List (List Char)),
    (text.length + 4) * (remaining.length + 1) ≤ fuel →
    ∀ (hd : IChunk) (t : List IChunk),
      splitBySeparator fuel cs ov text sep remaining = hd :: t → hd.char_start = 0
  | 0, cs, ov, text, sep, remaining => by
    intro h
    exfalso
    have h1 : 0 < (text.length + 4) * (remaining.length + 1) :=
      Nat.mul_pos (by omega) (by omega)
    omega
  | fuel + 1, cs, ov, text, sep, remaining => by
    intro h hd t heq
    rw [splitBySeparator] at heq
    split at heq
    · exact cls_head0 text cs ov hd t heq
    next hsep =>
      dsimp only at heq
      split at heq
      · exact absurd heq (by simp)
      · apply sl_head0 fuel cs ov sep remaining text.length (jsSplit sep text) [] [] 0 0
          hsep ?_ ?_ ?_ ?_ hd t heq
        · have hlen : (jsSplit sep text).length ≤ text.length + 1 := by
            unfold jsSplit
            exact splitOnFuel_length_le sep text.length text
          have e2 : (text.length + 4) * (remaining.length + 1) =
              (text.length + 4) * remaining.length + (text.length + 4) := by ring
          unfold chunkFuel
          omega
        · intro p hp
          unfold jsSplit at hp
          exact splitOnFuel_part_le sep text.length text p hp
        · intro _
          exact ⟨rfl, fun _ => rfl⟩
        · intro c0 t0 hc
          simp at hc
termination_by structural fuel _ _ _ _ _ => fuel

theorem sl_head0 : ∀ (fuel cs ov : Nat) (sep : List Char) (remaining : List (List Char))
    (T : Nat) (parts : List (List Char)) (chunks : List IChunk) (cur : List Char)
    (cst pos : Nat),
    sep ≠ [] →
    parts.length + chunkFuel T remaining.length + 1 ≤ fuel →
    (∀ p ∈ parts, p.length ≤ T) →
    (chunks = [] → cst = 0 ∧ (cur = [] → pos = 0)) →
    (∀ c0 t0, chunks = c0 :: t0 → c0.char_start = 0) →
    ∀ (hd : IChunk) (t : List IChunk),
      splitLoop fuel cs ov sep remaining parts chunks cur cst pos = hd :: t →
      hd.char_start = 0
  | 0, cs, ov, sep, remaining, T, parts, chunks, cur, cst, pos => by
    intro hsep hbound
    exfalso
    omega
  | fuel + 1, cs, ov, sep, remaining, T, parts, chunks, cur, cst, pos => by
    intro hsep hbound hT hinv0 hinvh hd t heq
    cases hch : chunks with
    | cons c0 t0 =>
      subst hch
      obtain ⟨suf, hsuf⟩ := splitLoop_append cs ov sep remaining (fuel + 1) parts
        (c0 :: t0) cur cst pos
      rw [hsuf] at heq
      rw [head_of_cons_append c0 t0 suf hd t heq]
      exact hinvh c0 t0 rfl
    | nil =>
      subst hch
      obtain ⟨hcst, hpos⟩ := hinv0 rfl
      subst hcst
      cases parts with
      | nil =>
        rw [splitLoop] at heq
        split at heq
        · exact absurd heq (by simp)
        · simp only [List.nil_append] at heq
          injection heq with h1 h2
          rw [← h1]
      | cons part parts2 =>
        rw [splitLoop] at heq
        dsimp only at heq
        by_cases hfit :
            (cur ++ if parts2.isEmpty = true then part else part ++ sep).length ≤ cs
        · rw [if_pos hfit] at heq
          apply sl_head0 fuel cs ov sep remaining T parts2 []
            (cur ++ if parts2.isEmpty = true then part else part ++ sep) 0
            (if parts2.isEmpty = true then pos else pos + part.length + sep.length)
            hsep ?_ ?_ ?_ ?_ hd t heq
          · simp only [List.length_cons] at hbound
            omega
          · intro p hp
            exact hT p (List.mem_cons_of_mem _ hp)
          · intro _
            refine ⟨rfl, ?_⟩
            intro hcat
            rw [List.append_eq_nil] at hcat
            obtain ⟨hcur, hpws⟩ := hcat
            by_cases hp2 : parts2.isEmpty = true
            · simp only [hp2, if_true]
              exact hpos hcur
            · simp only [hp2, if_false] at hpws
              simp at hpws
              exact absurd hpws.2 hsep
          · intro c0 t0 hc
            simp at hc
        · rw [if_neg hfit] at heq
          by_cases hcur : cur.isEmpty
          · rw [if_pos hcur] at heq
            have hpos0 : pos = 0 := hpos (List.isEmpty_iff.mp hcur)
            subst hpos0
            by_cases hrec : cs < part.length ∧ ¬ remaining.isEmpty
            · rw [if_pos hrec] at heq
              have hrc : goodStart (recursiveChunk fuel cs ov part remaining) := by
                apply rc_goodStart fuel cs ov part remaining
                have hple : part.length ≤ T := hT part (List.mem_cons_self _ _)
                have := chunkFuel_mono_left remaining.length hple
                simp only [List.length_cons] at hbound
                omega
              obtain ⟨shd, stl, hseq, sh0⟩ := hrc
              rw [hseq] at heq
              simp only [List.map_cons, List.nil_append] at heq
              obtain ⟨suf, hsuf⟩ := splitLoop_append cs ov sep remaining fuel parts2 _ _ _ _
              rw [hsuf] at heq
              have hhd := head_of_cons_append _ _ suf hd t heq
              rw [hhd]
              simp [sh0]
            · rw [if_neg hrec] at heq
              simp only [List.nil_append] at heq
              obtain ⟨suf, hsuf⟩ := splitLoop_append cs ov sep remaining fuel parts2 _ _ _ _
              rw [hsuf] at heq
              have hhd := head_of_cons_append _ _ suf hd t heq
              rw [hhd]
          · rw [if_neg hcur] at heq
            split at heq <;> split at heq <;>
              (simp only [List.nil_append] at heq
               obtain ⟨suf, hsuf⟩ := splitLoop_append cs ov sep remaining fuel parts2 _ _ _ _
               rw [hsuf] at heq
               have hhd := head_of_cons_append _ _ suf hd t heq
               rw [hhd])
termination_by structural fuel _ _ _ _ _ _ _ _ _ _ => fuel

end

/-- C4 amended: for every text shorter than `min_chunk_size`, `chunkText`
returns the empty list; for every text at least `min_chunk_size` long it
returns at least one chunk, and the first chunk starts at character 0 with
id `chunk_0`.  (The original claim's further assertions — consecutive
ranges meeting or overlapping and the last range ending at the text
length — are refuted by `claim_C4_counterexample`.) -/
theorem claim_C4_chunk_ranges :
    (∀ (text : List Char) (config : ChunkingConfig),
        text.length < config.min_chunk_size → chunkText text config = []) ∧
    (∀ (text : List Char) (config : ChunkingConfig),
        config.min_chunk_size ≤ text.length →
        ∃ hd t, chunkText text config = hd :: t ∧ hd.char_start = 0 ∧ hd.id = "chunk_0") := by
  constructor
  · intro text config h
    simp [chunkText, h]
  · intro text config h
    unfold chunkText
    rw [if_neg (by omega)]
    dsimp only
    obtain ⟨ihd, itl, hrc, h0⟩ := rc_goodStart (chunkFuel text.length SEPARATORS.length)
      (calculateChunkSize text.length config) config.overlap text SEPARATORS (le_refl _)
    rw [hrc]
    rw [List.enum_cons]
    rw [List.map_cons]
    refine ⟨_, _, rfl, h0, ?_⟩
    show ("chunk_" ++ toString (0 : Nat)) = "chunk_0"
    decide

/-- C4 amended-claim witness at concrete inputs: a 2-character text is
below the threshold and returns no chunks; `gapText` is above it and its
first chunk starts at 0. -/
theorem claim_C4_witness :
    chunkText "ab".data cfg4 = [] ∧
    (∃ hd t, chunkText gapText cfg4 = hd :: t ∧ hd.char_start = 0 ∧ hd.id = "chunk_0") :=
  ⟨claim_C4_chunk_ranges.1 "ab".data cfg4 (by decide),
   claim_C4_chunk_ranges.2 gapText cfg4 (by decide)⟩

-- ===========================================================================
-- Proofs: C7 (optimistic-concurrency retry wrapper)
-- ===========================================================================

theorem cas_all_conflict (pi op : String) (tip txt : Nat → String) (jit : Nat → Nat) :
    executeWithCASRetry (T := Nat) pi op (fun i => ⟨.ok (tip i), fun _ => .conflict (txt i)⟩) 5 50 jit =
      (.error (op ++ " failed for " ++ pi ++ " after " ++ toString 5 ++ " retries: " ++ ("CAS conflict after " ++ toString 5 ++ " retries: " ++ txt 4)),
       [.tipFetch 0 (.ok (tip 0)), .opCall 0 (tip 0), .sleep 0 (min 1000 (50 * 2 ^ 0 + jit 0)),
        .tipFetch 1 (.ok (tip 1)), .opCall 1 (tip 1), .sleep 1 (min 1000 (50 * 2 ^ 1 + jit 1)),
        .tipFetch 2 (.ok (tip 2)), .opCall 2 (tip 2), .sleep 2 (min 1000 (50 * 2 ^ 2 + jit 2)),
        .tipFetch 3 (.ok (tip 3)), .opCall 3 (tip 3), .sleep 3 (min 1000 (50 * 2 ^ 3 + jit 3)),
        .tipFetch 4 (.ok (tip 4)), .opCall 4 (tip 4)]) := by
  rfl

theorem casGo_opCall_tip {T : Type} (pi op : String) (env : Nat → AttemptEnv T)
    (maxR base : Nat) (jit : Nat → Nat) :
    ∀ (fuel attempt : Nat) (evs : List CASEvent),
      (∀ i t, CASEvent.opCall i t ∈ evs → (env i).tip = .ok t) →
      ∀ i t, CASEvent.opCall i t ∈ (casGo pi op env maxR base jit attempt fuel evs).2 →
        (env i).tip = .ok t := by
  intro fuel
  induction fuel with
  | zero =>
    intro attempt evs hinv i t hmem
    rw [casGo] at hmem
    exact hinv i t hmem
  | succ fuel ih =>
    intro attempt evs hinv i t hmem
    rw [casGo] at hmem
    dsimp only at hmem
    cases htip : (env attempt).tip with
    | error m =>
      rw [htip] at hmem
      dsimp only at hmem
      have hinv2 : ∀ i2 t2,
          CASEvent.opCall i2 t2 ∈ evs ++ [CASEvent.tipFetch attempt (.error m)] →
          (env i2).tip = .ok t2 := by
        intro i2 t2 hm
        rcases List.mem_append.mp hm with h1 | h2
        · exact hinv i2 t2 h1
        · simp at h2
      have hinv3 : ∀ (ms : Nat) i2 t2,
          CASEvent.opCall i2 t2 ∈
            (evs ++ [CASEvent.tipFetch attempt (.error m)]) ++ [CASEvent.sleep attempt ms] →
          (env i2).tip = .ok t2 := by
        intro ms i2 t2 hm
        rcases List.mem_append.mp hm with h1 | h2
        · exact hinv2 i2 t2 h1
        · simp at h2
      by_cases heq : attempt + 1 = maxR
      · rw [if_pos heq] at hmem
        exact hinv2 i t hmem
      · rw [if_neg heq] at hmem
        by_cases hcon : listContainsSub "CAS conflict".data m.data = true
        · rw [if_pos hcon] at hmem
          exact ih _ _ hinv2 i t hmem
        · rw [if_neg hcon] at hmem
          exact ih _ _ (hinv3 _) i t hmem
    | ok tipv =>
      rw [htip] at hmem
      dsimp only at hmem
      have hinv2 : ∀ i2 t2,
          CASEvent.opCall i2 t2 ∈
            evs ++ [CASEvent.tipFetch attempt (.ok tipv), CASEvent.opCall attempt tipv] →
          (env i2).tip = .ok t2 := by
        intro i2 t2 hm
        rcases List.mem_append.mp hm with h1 | h2
        · exact hinv i2 t2 h1
        · simp at h2
          rw [h2.1, h2.2]
          exact htip
      have hinv3 : ∀ (ms : Nat) i2 t2,
          CASEvent.opCall i2 t2 ∈
            (evs ++ [CASEvent.tipFetch attempt (.ok tipv), CASEvent.opCall attempt tipv]) ++
              [CASEvent.sleep attempt ms] →
          (env i2).tip = .ok t2 := by
        intro ms i2 t2 hm
        rcases List.mem_append.mp hm with h1 | h2
        · exact hinv2 i2 t2 h1
        · simp at h2
      cases hresp : (env attempt).resp tipv with
      | ok v =>
        rw [hresp] at hmem
        dsimp only at hmem
        exact hinv2 i t hmem
      | conflict txt =>
        rw [hresp] at hmem
        dsimp only at hmem
        by_cases hlt : attempt + 1 < maxR
        · rw [if_pos hlt] at hmem
          dsimp only at hmem
          exact ih _ _ (hinv3 _) i t hmem
        · rw [if_neg hlt] at hmem
          dsimp only at hmem
          by_cases heq : attempt + 1 = maxR
          · rw [if_pos heq] at hmem
            exact hinv2 i t hmem
          · rw [if_neg heq] at hmem
            by_cases hcon : listContainsSub "CAS conflict".data
                ("CAS conflict after " ++ toString maxR ++ " retries: " ++ txt).data = true
            · rw [if_pos hcon] at hmem
              exact ih _ _ hinv2 i t hmem
            · rw [if_neg hcon] at hmem
              exact ih _ _ (hinv3 _) i t hmem
      | errStatus st txt =>
        rw [hresp] at hmem
        dsimp only at hmem
        by_cases heq : attempt + 1 = maxR
        · rw [if_pos heq] at hmem
          exact hinv2 i t hmem
        · rw [if_neg heq] at hmem
          by_cases hcon : listContainsSub "CAS conflict".data
              (op ++ " error " ++ toString st ++ ": " ++ txt).data = true
          · rw [if_pos hcon] at hmem
            exact ih _ _ hinv2 i t hmem
          · rw [if_neg hcon] at hmem
            exact ih _ _ (hinv3 _) i t hmem

theorem casGo_step_conflict {T : Type} (pi op : String) (env : Nat → AttemptEnv T)
    (maxR base : Nat) (jit : Nat → Nat) (fuel attempt : Nat) (evs : List CASEvent)
    (tipv txt : String) (h1 : (env attempt).tip = .ok tipv)
    (h2 : (env attempt).resp tipv = .conflict txt) (h3 : attempt + 1 < maxR) :
    casGo pi op env maxR base jit attempt (fuel + 1) evs =
      casGo pi op env maxR base jit (attempt + 1) fuel
        (evs ++ [CASEvent.tipFetch attempt (.ok tipv), CASEvent.opCall attempt tipv,
                 CASEvent.sleep attempt (casDelay base jit attempt)]) := by
  rw [casGo]
  dsimp only
  rw [h1]
  dsimp only
  rw [h2]
  dsimp only
  rw [if_pos h3]
  dsimp only
  rw [List.append_assoc]
  rfl

theorem casGo_step_err_plain {T : Type} (pi op : String) (env : Nat → AttemptEnv T)
    (maxR base : Nat) (jit : Nat → Nat) (fuel attempt : Nat) (evs : List CASEvent)
    (tipv txt : String) (st : Nat) (h1 : (env attempt).tip = .ok tipv)
    (h2 : (env attempt).resp tipv = .errStatus st txt) (h3 : attempt + 1 ≠ maxR)
    (h4 : ¬ listContainsSub "CAS conflict".data
        (op ++ " error " ++ toString st ++ ": " ++ txt).data = true) :
    casGo pi op env maxR base jit attempt (fuel + 1) evs =
      casGo pi op env maxR base jit (attempt + 1) fuel
        (evs ++ [CASEvent.tipFetch attempt (.ok tipv), CASEvent.opCall attempt tipv,
                 CASEvent.sleep attempt (casDelay base jit attempt)]) := by
  rw [casGo]
  dsimp only
  rw [h1]
  dsimp only
  rw [h2]
  dsimp only
  rw [if_neg h3, if_neg h4]
  rw [List.append_assoc]
  rfl

theorem casGo_step_err_casword {T : Type} (pi op : String) (env : Nat → AttemptEnv T)
    (maxR base : Nat) (jit : Nat → Nat) (fuel attempt : Nat) (evs : List CASEvent)
    (tipv txt : String) (st : Nat) (h1 : (env attempt).tip = .ok tipv)
    (h2 : (env attempt).resp tipv = .errStatus st txt) (h3 : attempt + 1 ≠ maxR)
    (h4 : listContainsSub "CAS conflict".data
        (op ++ " error " ++ toString st ++ ": " ++ txt).data = true) :
    casGo pi op env maxR base jit attempt (fuel + 1) evs =
      casGo pi op env maxR base jit (attempt + 1) fuel
        (evs ++ [CASEvent.tipFetch attempt (.ok tipv), CASEvent.opCall attempt tipv]) := by
  rw [casGo]
  dsimp only
  rw [h1]
  dsimp only
  rw [h2]
  dsimp only
  rw [if_neg h3, if_pos h4]

/-- Attempt environment refuting the schedule clause: attempt 0 fails with
a 500 whose body text contains the substring `CAS conflict`; later
attempts succeed. -/
def w7envEdge : Nat → AttemptEnv Nat := fun i =>
  if i = 0 then { tip := .ok "t0", resp := fun _ => .errStatus 500 "CAS conflict" }
  else { tip := .ok ("t" ++ toString i), resp := fun _ => .ok 7 }


/-- C7 amended: the optimistic-concurrency retry wrapper
(i) re-fetches the entity tip before each attempt and issues the operation
with exactly that attempt's freshly fetched tip; (ii–iv) the three
mutating wrappers (`appendVersion`, `addChildToParent`, `updateRelations`)
send the fetched tip as the `expect_tip` precondition of their request
bodies; (v) with every attempt answering 409, the default options
(5 attempts, 50 ms base) produce exactly five tip-fetch/operation pairs
separated by sleeps of `min(1000, 50·2^i + jitter_i)` and end in an error
naming the operation and the entity; (vi) a non-final 409 always sleeps
the backoff before the next attempt; (vii) a non-final non-conflict error
whose message does not contain the substring `CAS conflict` sleeps the
same backoff before retrying, but (viii) one whose message does contain
that substring retries immediately with no sleep — the schedule clause of
the original claim fails there (`claim_C7_counterexample`). -/
theorem claim_C7_cas_retry_policy :
    (∀ (T : Type) (pi op : String) (env : Nat → AttemptEnv T) (maxR base : Nat)
        (jit : Nat → Nat) (i : Nat) (t : String),
        CASEvent.opCall i t ∈ (executeWithCASRetry pi op env maxR base jit).2 →
        (env i).tip = .ok t) ∧
    (∀ (req : AppendVersionRequest) (tipv : String),
        (appendVersionOp req tipv).expect_tip = tipv) ∧
    (∀ (pp cc tipv : String), (addChildToParentOp pp cc tipv).expect_tip = tipv) ∧
    (∀ (pp : String) (ac rc : Option (List String)) (nt : Option String) (tipv : String),
        (updateRelationsOp pp ac rc nt tipv).expect_tip = tipv) ∧
    (∀ (pi op : String) (tip txt : Nat → String) (jit : Nat → Nat),
        executeWithCASRetry (T := Nat) pi op
            (fun i => ⟨.ok (tip i), fun _ => .conflict (txt i)⟩) 5 50 jit =
          (.error (op ++ " failed for " ++ pi ++ " after " ++ toString 5 ++ " retries: " ++
             ("CAS conflict after " ++ toString 5 ++ " retries: " ++ txt 4)),
           [.tipFetch 0 (.ok (tip 0)), .opCall 0 (tip 0),
            .sleep 0 (min 1000 (50 * 2 ^ 0 + jit 0)),
            .tipFetch 1 (.ok (tip 1)), .opCall 1 (tip 1),
            .sleep 1 (min 1000 (50 * 2 ^ 1 + jit 1)),
            .tipFetch 2 (.ok (tip 2)), .opCall 2 (tip 2),
            .sleep 2 (min 1000 (50 * 2 ^ 2 + jit 2)),
            .tipFetch 3 (.ok (tip 3)), .opCall 3 (tip 3),
            .sleep 3 (min 1000 (50 * 2 ^ 3 + jit 3)),
            .tipFetch 4 (.ok (tip 4)), .opCall 4 (tip 4)])) ∧
    (∀ (T : Type) (pi op : String) (env : Nat → AttemptEnv T) (maxR base : Nat)
        (jit : Nat → Nat) (fuel attempt : Nat) (evs : List CASEvent) (tipv txt : String),
        (env attempt).tip = .ok tipv → (env attempt).resp tipv = .conflict txt →
        attempt + 1 < maxR →
        casGo pi op env maxR base jit attempt (fuel + 1) evs =
          casGo pi op env maxR base jit (attempt + 1) fuel
            (evs ++ [CASEvent.tipFetch attempt (.ok tipv), CASEvent.opCall attempt tipv,
                     CASEvent.sleep attempt (casDelay base jit attempt)])) ∧
    (∀ (T : Type) (pi op : String) (env : Nat → AttemptEnv T) (maxR base : Nat)
        (jit : Nat → Nat) (fuel attempt : Nat) (evs : List CASEvent) (tipv txt : String)
        (st : Nat),
        (env attempt).tip = .ok tipv → (env attempt).resp tipv = .errStatus st txt →
        attempt + 1 ≠ maxR →
        ¬ listContainsSub "CAS conflict".data
            (op ++ " error " ++ toString st ++ ": " ++ txt).data = true →
        casGo pi op env maxR base jit attempt (fuel + 1) evs =
          casGo pi op env maxR base jit (attempt + 1) fuel
            (evs ++ [CASEvent.tipFetch attempt (.ok tipv), CASEvent.opCall attempt tipv,
                     CASEvent.sleep attempt (casDelay base jit attempt)])) ∧
    (∀ (T : Type) (pi op : String) (env : Nat → AttemptEnv T) (maxR base : Nat)
        (jit : Nat → Nat) (fuel attempt : Nat) (evs : List CASEvent) (tipv txt : String)
        (st : Nat),
        (env attempt).tip = .ok tipv → (env attempt).resp tipv = .errStatus st txt →
        attempt + 1 ≠ maxR →
        listContainsSub "CAS conflict".data
            (op ++ " error " ++ toString st ++ ": " ++ txt).data = true →
        casGo pi op env maxR base jit attempt (fuel + 1) evs =
          casGo pi op env maxR base jit (attempt + 1) fuel
            (evs ++ [CASEvent.tipFetch attempt (.ok tipv), CASEvent.opCall attempt tipv])) := by
  refine ⟨?_, fun _ _ => rfl, fun _ _ _ => rfl, fun _ _ _ _ _ => rfl, ?_, ?_, ?_, ?_⟩
  · intro T pi op env maxR base jit i t hmem
    exact casGo_opCall_tip pi op env maxR base jit maxR 0 [] (by intro _ _ h; simp at h) i t hmem
  · intro pi op tip txt jit
    exact cas_all_conflict pi op tip txt jit
  · intro T pi op env maxR base jit fuel attempt evs tipv txt h1 h2 h3
    exact casGo_step_conflict pi op env maxR base jit fuel attempt evs tipv txt h1 h2 h3
  · intro T pi op env maxR base jit fuel attempt evs tipv txt st h1 h2 h3 h4
    exact casGo_step_err_plain pi op env maxR base jit fuel attempt evs tipv txt st h1 h2 h3 h4
  · intro T pi op env maxR base jit fuel attempt evs tipv txt st h1 h2 h3 h4
    exact casGo_step_err_casword pi op env maxR base jit fuel attempt evs tipv txt st h1 h2 h3 h4

/-- C7 counterexample to the original schedule clause: a non-conflict
(500) error whose body text contains `CAS conflict` is retried — attempt 1
runs and the whole call eventually succeeds — but with no backoff sleep
before it, unlike the claimed schedule. -/
theorem claim_C7_counterexample :
    CASEvent.tipFetch 1 (.ok "t1") ∈
      (executeWithCASRetry "PI1" "updateRelations" w7envEdge 5 50 (fun _ => 0)).2 ∧
    ((executeWithCASRetry "PI1" "updateRelations" w7envEdge 5 50 (fun _ => 0)).2.all
      (fun e => match e with | CASEvent.sleep 0 _ => false | _ => true)) = true ∧
    (executeWithCASRetry "PI1" "updateRelations" w7envEdge 5 50 (fun _ => 0)).1 = .ok 7 := by
  refine ⟨by decide, by decide, by decide⟩

/-- C7 amended-claim witness: on the concrete edge environment, the
operation call of attempt 1 used exactly the tip fetched for attempt 1. -/
theorem claim_C7_witness : (w7envEdge 1).tip = .ok "t1" :=
  claim_C7_cas_retry_policy.1 Nat "PI1" "updateRelations" w7envEdge 5 50 (fun _ => 0) 1 "t1"
    (by decide)

-- ===========================================================================
-- Proofs: C3 (per-file terminal failure sentinel)
-- ===========================================================================

theorem setCidAt_get_self (c : String) :
    ∀ (files : List DiscoveryTextFile) (i : Nat) (f : DiscoveryTextFile),
      files[i]? = some f → (setCidAt c files i)[i]? = some { f with cid := some c } := by
  intro files
  induction files with
  | nil => intro i f h; simp at h
  | cons g fs ih =>
    intro i f h
    cases i with
    | zero =>
      simp only [List.getElem?_cons_zero] at h
      injection h with h1
      subst h1
      simp [setCidAt]
    | succ j =>
      simp only [List.getElem?_cons_succ] at h
      simpa [setCidAt] using ih j f h

theorem applyUpload_eq_err (env : String → UploadOutcome) (s : DiscoveryState)
    (p : String) (i : Nat) (n : DiscoveryNode) (f : DiscoveryTextFile)
    (hn : alookup p s.nodes = some n) (hf : n.text_files[i]? = some f)
    (he : env f.r2_key = .err) :
    applyUpload env s (p, i) =
      { s with
        nodes := aupdate p (fun m => { m with text_files := setCidAt "" m.text_files i }) s.nodes
        files_uploaded := s.files_uploaded + 1 } := by
  simp [applyUpload, hn, hf, he]

theorem applyUpload_eq_ok (env : String → UploadOutcome) (s : DiscoveryState)
    (p : String) (i : Nat) (n : DiscoveryNode) (f : DiscoveryTextFile) (c : String)
    (hn : alookup p s.nodes = some n) (hf : n.text_files[i]? = some f)
    (he : env f.r2_key = .ok c) :
    applyUpload env s (p, i) =
      { s with
        nodes := aupdate p (fun m => { m with text_files := setCidAt c m.text_files i }) s.nodes
        files_uploaded := s.files_uploaded + 1 } := by
  simp [applyUpload, hn, hf, he]

theorem getFileAt_aupdate_setCid (c : String) (p : String) (i : Nat)
    (nodes : List (String × DiscoveryNode)) (n : DiscoveryNode) (f : DiscoveryTextFile)
    (hn : alookup p nodes = some n) (hf : n.text_files[i]? = some f)
    (s : DiscoveryState)
    (hs : s.nodes = aupdate p (fun m => { m with text_files := setCidAt c m.text_files i }) nodes) :
    getFileAt p i s = some { f with cid := some c } := by
  unfold getFileAt
  rw [hs, alookup_aupdate_self, hn]
  dsimp only [Option.map, Option.bind]
  exact setCidAt_get_self c n.text_files i f hf

theorem nodup_alookup {α : Type} (p : String) (n : α) :
    ∀ m : List (String × α), (m.map Prod.fst).Nodup → (p, n) ∈ m → alookup p m = some n := by
  intro m
  induction m with
  | nil => intro _ h; simp at h
  | cons pr rest ih =>
    intro hnd hmem
    rw [List.map_cons, List.nodup_cons] at hnd
    rw [alookup_cons]
    rcases List.mem_cons.mp hmem with heq | hmem2
    · rw [← heq]
      simp
    · by_cases hp : pr.1 = p
      · exact absurd (hp ▸ List.mem_map.mpr ⟨(p, n), hmem2, rfl⟩) hnd.1
      · rw [if_neg hp]
        exact ih hnd.2 hmem2

theorem getFilesNeedingUpload_sound (s : DiscoveryState) (p : String) (i : Nat)
    (h : (p, i) ∈ getFilesNeedingUpload s) :
    ∃ n f, (p, n) ∈ s.nodes ∧ n.text_files[i]? = some f ∧ f.cid = none := by
  unfold getFilesNeedingUpload at h
  rw [List.mem_flatMap] at h
  obtain ⟨⟨q, nn⟩, hpr, h2⟩ := h
  rw [List.mem_filterMap] at h2
  obtain ⟨⟨j, g⟩, hitf, heq⟩ := h2
  rw [List.mk_mem_enum_iff_getElem?] at hitf
  by_cases hc : g.cid = none
  · rw [if_pos hc] at heq
    injection heq with h3
    have hp : q = p := congrArg Prod.fst h3
    have hi : j = i := congrArg Prod.snd h3
    subst hp; subst hi
    exact ⟨nn, g, hpr, hitf, hc⟩
  · rw [if_neg hc] at heq
    simp at heq

theorem applyUpload_cid_ne (env : String → UploadOutcome) (s : DiscoveryState)
    (it : String × Nat) (p : String) (i : Nat) (f : DiscoveryTextFile)
    (hget : getFileAt p i s = some f) (hc : f.cid ≠ none) :
    ∃ f', getFileAt p i (applyUpload env s it) = some f' ∧ f'.cid ≠ none := by
  cases it with
  | mk q j =>
    by_cases hqj : (q, j) = (p, i)
    · have hq : q = p := congrArg Prod.fst hqj
      have hj : j = i := congrArg Prod.snd hqj
      subst hq; subst hj
      cases hn : alookup q s.nodes with
      | none =>
        have : applyUpload env s (q, j) = s := by simp [applyUpload, hn]
        rw [this]
        exact ⟨f, hget, hc⟩
      | some n =>
        cases hf2 : n.text_files[j]? with
        | none =>
          have : applyUpload env s (q, j) = s := by simp [applyUpload, hn, hf2]
          rw [this]
          exact ⟨f, hget, hc⟩
        | some g =>
          cases he : env g.r2_key with
          | missing =>
            rw [applyUpload_missing env s q j n g hn hf2 he]
            exact ⟨f, hget, hc⟩
          | ok c =>
            refine ⟨{ g with cid := some c }, ?_, by simp⟩
            exact getFileAt_aupdate_setCid c q j s.nodes n g hn hf2 _
              (congrArg DiscoveryState.nodes (applyUpload_eq_ok env s q j n g c hn hf2 he))
          | err =>
            refine ⟨{ g with cid := some "" }, ?_, by simp⟩
            exact getFileAt_aupdate_setCid "" q j s.nodes n g hn hf2 _
              (congrArg DiscoveryState.nodes (applyUpload_eq_err env s q j n g hn hf2 he))
    · refine ⟨f, ?_, hc⟩
      rw [applyUpload_getFileAt_ne env s p i q j hqj]
      exact hget

theorem foldl_upload_cid_ne (env : String → UploadOutcome) (p : String) (i : Nat) :
    ∀ (items : List (String × Nat)) (s : DiscoveryState) (f : DiscoveryTextFile),
      getFileAt p i s = some f → f.cid ≠ none →
      ∃ f', getFileAt p i (items.foldl (applyUpload env) s) = some f' ∧ f'.cid ≠ none := by
  intro items
  induction items with
  | nil => intro s f h hc; exact ⟨f, h, hc⟩
  | cons it rest ih =>
    intro s f h hc
    obtain ⟨f1, h1, hc1⟩ := applyUpload_cid_ne env s it p i f h hc
    rw [List.foldl_cons]
    exact ih _ f1 h1 hc1

theorem uploadFileBatch_cid_ne (env : String → UploadOutcome) (bs : Nat) (s : DiscoveryState)
    (p : String) (i : Nat) (f : DiscoveryTextFile)
    (h : getFileAt p i s = some f) (hc : f.cid ≠ none) :
    ∃ f', getFileAt p i (uploadFileBatch env bs s).1 = some f' ∧ f'.cid ≠ none := by
  unfold uploadFileBatch
  dsimp only
  by_cases hp : ((getFilesNeedingUpload s).take bs).isEmpty
  · rw [if_pos hp]
    exact ⟨f, h, hc⟩
  · rw [if_neg hp]
    obtain ⟨f1, h1, hc1⟩ := foldl_upload_cid_ne env p i _ s f h hc
    by_cases hq : (getFilesNeedingUpload (((getFilesNeedingUpload s).take bs).foldl (applyUpload env) s)).isEmpty
    · rw [if_pos hq]
      exact ⟨f1, h1, hc1⟩
    · rw [if_neg hq]
      exact ⟨f1, h1, hc1⟩

theorem publishDirectory_getFileAt (env : String → CreateResult)
    (pre : List (String × String)) (s : DiscoveryState) (n : DiscoveryNode)
    (p : String) (i : Nat) :
    getFileAt p i (publishDirectory env pre s n).1 = getFileAt p i s := by
  unfold publishDirectory getFileAt
  dsimp only
  by_cases hq : p = n.path
  · subst hq
    rw [alookup_aupdate_self]
    cases alookup n.path s.nodes with
    | none => rfl
    | some m => rfl
  · rw [alookup_aupdate_ne _ _ _ _ hq]

theorem applyPublishList_foldl_getFileAt (env : String → CreateResult)
    (pre : List (String × String)) (p : String) (i : Nat) :
    ∀ (dirs : List DiscoveryNode) (acc : DiscoveryState × List CreateCall),
      getFileAt p i (dirs.foldl (fun acc n =>
        let r := publishDirectory env pre acc.1 n
        (r.1, acc.2 ++ [r.2])) acc).1 = getFileAt p i acc.1 := by
  intro dirs
  induction dirs with
  | nil => intro acc; rfl
  | cons d rest ih =>
    intro acc
    rw [List.foldl_cons]
    dsimp only
    rw [ih, publishDirectory_getFileAt]

theorem publishDirectoryBatch_getFileAt (env : String → CreateResult) (bs : Nat)
    (s : DiscoveryState) (p : String) (i : Nat) :
    getFileAt p i (publishDirectoryBatch env bs s).1 = getFileAt p i s := by
  unfold publishDirectoryBatch
  dsimp only
  by_cases hr : ((getDirectoriesReadyToPublish s).take bs).isEmpty
  · rw [if_pos hr]
    by_cases hd : 0 < s.current_depth
    · rw [if_pos hd]
      rfl
    · rw [if_neg hd]
      rfl
  · rw [if_neg hr]
    dsimp only
    exact applyPublishList_foldl_getFileAt env s.node_pis p i _ _

theorem dstep_cid_ne {s s' : DiscoveryState} (h : DStep s s') (p : String) (i : Nat)
    (f : DiscoveryTextFile) (hg : getFileAt p i s = some f) (hc : f.cid ≠ none) :
    ∃ f', getFileAt p i s' = some f' ∧ f'.cid ≠ none := by
  cases h with
  | upload uenv bs s hph => exact uploadFileBatch_cid_ne uenv bs s p i f hg hc
  | publishFull penv bs s hph =>
    refine ⟨f, ?_, hc⟩
    rw [publishDirectoryBatch_getFileAt]
    exact hg
  | publishPartial penv bs s sub hsub hph =>
    refine ⟨f, ?_, hc⟩
    unfold applyPublishList
    rw [applyPublishList_foldl_getFileAt]
    exact hg
  | rel pp s hph => exact ⟨f, hg, hc⟩

def w3errEnv : String → UploadOutcome := fun _ => .err

def w3manifest : BatchManifest :=
  { directories := [{ directory_path := "/", files := [scnFile "k3" "a3.txt"] }] }

def w3node3 : DiscoveryNode :=
  { path := "/", depth := 0,
    text_files := [{ filename := "a3.txt", r2_key := "k3" }] }

def w3after : DiscoveryState := (uploadFileBatch w3errEnv 100 (buildDiscoveryTree w3manifest)).1

/-- C3: per-file terminal failure sentinel.  (i) A selected file whose
fetch-and-upload throws gets `cid := ""` and `files_uploaded` is
incremented for it; (ii) only files with `cid` still unset are ever
selected for upload, so a file whose `cid` is set (even to the empty
string) is never selected again; (iii) a set `cid` survives every further
step of the Discovery Processor; (iv) end to end, with every upload
throwing, the batch still drains UPLOADING (all three files consumed,
`files_uploaded = 3` with empty-string cids), publishes, and finishes DONE
with a root pi. -/
theorem claim_C3_error_sentinel :
    (∀ (env : String → UploadOutcome) (s : DiscoveryState) (p : String) (i : Nat)
        (n : DiscoveryNode) (f : DiscoveryTextFile),
        alookup p s.nodes = some n → n.text_files[i]? = some f →
        env f.r2_key = .err →
        getFileAt p i (applyUpload env s (p, i)) = some { f with cid := some "" } ∧
        (applyUpload env s (p, i)).files_uploaded = s.files_uploaded + 1) ∧
    (∀ (s : DiscoveryState) (p : String) (i : Nat) (f : DiscoveryTextFile),
        getFileAt p i s = some f → f.cid ≠ none →
        (s.nodes.map Prod.fst).Nodup → (p, i) ∉ getFilesNeedingUpload s) ∧
    (∀ (s s' : DiscoveryState), DStep s s' →
        ∀ (p : String) (i : Nat) (f : DiscoveryTextFile),
        getFileAt p i s = some f → f.cid ≠ none →
        ∃ f', getFileAt p i s' = some f' ∧ f'.cid ≠ none) ∧
    ((runSyncDiscovery 20 w3errEnv scnCreate scnManifest none).1.phase = DiscoveryPhase.DONE ∧
     (runSyncDiscovery 20 w3errEnv scnCreate scnManifest none).1.files_uploaded = 3 ∧
     getFileAt "/a" 0 (runSyncDiscovery 20 w3errEnv scnCreate scnManifest none).1 =
       some { filename := "a.txt", r2_key := "ka", cid := some "" } ∧
     ((runSyncDiscovery 20 w3errEnv scnCreate scnManifest none).2.2).toOption.map
       (fun r => r.root_pi) = some "pi_/") := by
  refine ⟨?_, ?_, ?_, by decide, by decide, by decide, by decide⟩
  · intro env s p i n f hn hf he
    constructor
    · exact getFileAt_aupdate_setCid "" p i s.nodes n f hn hf _
        (congrArg DiscoveryState.nodes (applyUpload_eq_err env s p i n f hn hf he))
    · rw [applyUpload_eq_err env s p i n f hn hf he]
  · intro s p i f hget hcid hnd hmem
    obtain ⟨n, g, hmemn, hg, hgc⟩ := getFilesNeedingUpload_sound s p i hmem
    have hl : alookup p s.nodes = some n := nodup_alookup p n s.nodes hnd hmemn
    unfold getFileAt at hget
    rw [hl] at hget
    dsimp only [Option.bind] at hget
    rw [hg] at hget
    injection hget with h1
    subst h1
    exact hcid hgc
  · intro s s' hstep p i f hg hc
    exact dstep_cid_ne hstep p i f hg hc

/-- C3 witness: on a one-file manifest with a throwing upload oracle, the
processed file's `cid` is the empty-string sentinel and `files_uploaded`
went up; after the upload step the file is no longer selected; and the
next (publish) step keeps its `cid` set. -/
theorem claim_C3_witness :
    (getFileAt "/" 0 (applyUpload w3errEnv (buildDiscoveryTree w3manifest) ("/", 0)) =
       some { filename := "a3.txt", r2_key := "k3", cid := some "" } ∧
     (applyUpload w3errEnv (buildDiscoveryTree w3manifest) ("/", 0)).files_uploaded =
       (buildDiscoveryTree w3manifest).files_uploaded + 1) ∧
    ("/", 0) ∉ getFilesNeedingUpload w3after ∧
    (∃ f', getFileAt "/" 0 (publishDirectoryBatch scnCreate 100 w3after).1 = some f' ∧
       f'.cid ≠ none) := by
  refine ⟨?_, ?_, ?_⟩
  · exact claim_C3_error_sentinel.1 w3errEnv (buildDiscoveryTree w3manifest) "/" 0 w3node3
      { filename := "a3.txt", r2_key := "k3" } (by decide) (by decide) (by decide)
  · exact claim_C3_error_sentinel.2.1 w3after "/" 0
      { filename := "a3.txt", r2_key := "k3", cid := some "" } (by decide) (by decide) (by decide)
  · exact claim_C3_error_sentinel.2.2.1 w3after (publishDirectoryBatch scnCreate 100 w3after).1
      (DStep.publishFull scnCreate 100 w3after (by decide)) "/" 0
      { filename := "a3.txt", r2_key := "k3", cid := some "" } (by decide) (by decide)

-- ===========================================================================
-- Proofs: C5 (tree-builder well-formedness)
-- ===========================================================================

theorem splitOnChar_cons (sep c : Char) (cs : List Char) :
    splitOnChar sep (c :: cs) =
      if c = sep then [] :: splitOnChar sep cs
      else match splitOnChar sep cs with
           | [] => [[c]]
           | y :: t => (c :: y) :: t := rfl

theorem splitOnChar_ne_nil (sep : Char) : ∀ cs : List Char, splitOnChar sep cs ≠ [] := by
  intro cs
  induction cs with
  | nil => simp [splitOnChar]
  | cons c cs ih =>
    unfold splitOnChar
    dsimp only
    by_cases hc : c = sep
    · rw [if_pos hc]
      simp
    · rw [if_neg hc]
      cases splitOnChar sep cs with
      | nil => simp
      | cons y t => simp

theorem mem_splitOnChar_no_sep (sep : Char) :
    ∀ (cs : List Char) (x : List Char), x ∈ splitOnChar sep cs → sep ∉ x := by
  intro cs
  induction cs with
  | nil =>
    intro x hx
    simp [splitOnChar] at hx
    subst hx
    simp
  | cons c cs ih =>
    intro x hx
    unfold splitOnChar at hx
    dsimp only at hx
    by_cases hc : c = sep
    · rw [if_pos hc] at hx
      rcases List.mem_cons.mp hx with h | h
      · subst h; simp
      · exact ih x h
    · rw [if_neg hc] at hx
      cases hr : splitOnChar sep cs with
      | nil => exact absurd hr (splitOnChar_ne_nil sep cs)
      | cons y t =>
        rw [hr] at hx
        rcases List.mem_cons.mp hx with h2 | h2
        · subst h2
          intro hmem
          rcases List.mem_cons.mp hmem with h3 | h3
          · exact hc h3.symm
          · exact ih y (by rw [hr]; exact List.mem_cons_self y t) h3
        · exact ih x (by rw [hr]; exact List.mem_cons_of_mem y h2)

theorem splitOnChar_no_sep_eq (sep : Char) :
    ∀ x : List Char, sep ∉ x → splitOnChar sep x = [x] := by
  intro x
  induction x with
  | nil => intro _; rfl
  | cons c cs ih =>
    intro h
    have hc : ¬ c = sep := fun he => h (he ▸ List.mem_cons_self c cs)
    have hcs : sep ∉ cs := fun hm => h (List.mem_cons_of_mem c hm)
    unfold splitOnChar
    dsimp only
    rw [if_neg hc, ih hcs]

theorem splitOnChar_append_sep (sep : Char) :
    ∀ (x cs : List Char), sep ∉ x →
      splitOnChar sep (x ++ sep :: cs) = x :: splitOnChar sep cs := by
  intro x
  induction x with
  | nil =>
    intro cs _
    show splitOnChar sep (sep :: cs) = [] :: splitOnChar sep cs
    rw [splitOnChar_cons, if_pos rfl]
  | cons c x2 ih =>
    intro cs h
    have hc : ¬ c = sep := fun he => h (he ▸ List.mem_cons_self c x2)
    have hx : sep ∉ x2 := fun hm => h (List.mem_cons_of_mem c hm)
    show splitOnChar sep (c :: (x2 ++ sep :: cs)) = (c :: x2) :: splitOnChar sep cs
    rw [splitOnChar_cons, if_neg hc, ih cs hx]

theorem splitOnChar_joinSegs :
    ∀ (t : List (List Char)) (x : List Char),
      ('/' : Char) ∉ x → (∀ y ∈ t, ('/' : Char) ∉ y) →
      splitOnChar '/' (joinSegs (x :: t)) = x :: t := by
  intro t
  induction t with
  | nil =>
    intro x hx _
    exact splitOnChar_no_sep_eq '/' x hx
  | cons y t2 ih =>
    intro x hx hall
    show splitOnChar '/' (x ++ '/' :: joinSegs (y :: t2)) = x :: y :: t2
    rw [splitOnChar_append_sep '/' x _ hx,
        ih y (hall y (List.mem_cons_self y t2)) (fun z hz => hall z (List.mem_cons_of_mem y hz))]

theorem mem_of_mem_dropLast {α : Type} (x : α) :
    ∀ l : List α, x ∈ l.dropLast → x ∈ l := by
  intro l
  induction l with
  | nil => intro h; simp at h
  | cons a t ih =>
    intro h
    cases t with
    | nil => simp at h
    | cons b t2 =>
      rw [List.dropLast_cons₂] at h
      rcases List.mem_cons.mp h with h2 | h2
      · rw [h2]; exact List.mem_cons_self a (b :: t2)
      · exact List.mem_cons_of_mem a (ih h2)

theorem pathSegs_roundtrip (L : List (List Char))
    (hne : ∀ x ∈ L, x ≠ []) (hsl : ∀ x ∈ L, ('/' : Char) ∉ x) :
    pathSegs (String.mk ('/' :: joinSegs L)) = L := by
  show (splitOnChar '/' ('/' :: joinSegs L)).filter (fun l => !l.isEmpty) = L
  have h1 : splitOnChar '/' ('/' :: joinSegs L) = [] :: splitOnChar '/' (joinSegs L) := by
    rw [splitOnChar_cons, if_pos rfl]
  rw [h1]
  cases L with
  | nil => rfl
  | cons x t =>
    rw [splitOnChar_joinSegs t x (hsl x (List.mem_cons_self x t))
          (fun y hy => hsl y (List.mem_cons_of_mem x hy))]
    have hfx : ∀ a ∈ x :: t, (!a.isEmpty) = true := by
      intro a ha
      have hne2 : a ≠ [] := hne a ha
      simp [hne2]
    have hdrop : ([] :: x :: t).filter (fun l => !l.isEmpty) =
        (x :: t).filter (fun l => !l.isEmpty) := by simp
    rw [hdrop, List.filter_eq_self.mpr hfx]

theorem pathSegs_ne_nil (s : String) : ∀ x ∈ pathSegs s, x ≠ [] := by
  intro x hx
  unfold pathSegs at hx
  have h2 := (List.mem_filter.mp hx).2
  intro hxe
  subst hxe
  simp at h2

theorem pathSegs_no_slash (s : String) : ∀ x ∈ pathSegs s, ('/' : Char) ∉ x := by
  intro x hx
  unfold pathSegs at hx
  exact mem_splitOnChar_no_sep '/' s.data x (List.mem_filter.mp hx).1

theorem parentPathOf_segs (p : String) (h2 : 2 ≤ numSegs p) :
    pathSegs (parentPathOf p) = (pathSegs p).dropLast := by
  have hne1 : ¬ numSegs p = 1 := by omega
  unfold parentPathOf
  rw [if_neg hne1]
  exact pathSegs_roundtrip (pathSegs p).dropLast
    (fun x hx => pathSegs_ne_nil p x (mem_of_mem_dropLast x _ hx))
    (fun x hx => pathSegs_no_slash p x (mem_of_mem_dropLast x _ hx))

theorem numSegs_parentPathOf (p : String) (h2 : 2 ≤ numSegs p) :
    numSegs (parentPathOf p) = numSegs p - 1 := by
  unfold numSegs
  rw [parentPathOf_segs p h2, List.length_dropLast]

theorem parentPathOf_root_cases (p : String) :
    parentPathOf p = "/" ∨ numSegs (parentPathOf p) + 1 = numSegs p := by
  by_cases h1 : numSegs p = 1
  · left
    unfold parentPathOf
    rw [if_pos h1]
  · by_cases h0 : numSegs p = 0
    · left
      unfold parentPathOf
      rw [if_neg h1]
      have hz : pathSegs p = [] := List.length_eq_zero.mp h0
      rw [hz]
      decide
    · right
      have h2 : 2 ≤ numSegs p := by omega
      rw [numSegs_parentPathOf p h2]
      omega

theorem itemCost_pos (p : String) : 1 ≤ itemCost p := by
  unfold itemCost
  split <;> omega

theorem itemCost_parent_le (p : String) (hp : p ≠ "/") :
    itemCost (parentPathOf p) + 1 ≤ itemCost p := by
  have hcp : itemCost p = 2 * numSegs p + 2 := by
    unfold itemCost
    rw [if_neg hp]
  rcases parentPathOf_root_cases p with h | h
  · rw [h]
    have : itemCost "/" = 1 := by
      unfold itemCost
      rw [if_pos rfl]
    omega
  · by_cases hroot : parentPathOf p = "/"
    · rw [hroot]
      have : itemCost "/" = 1 := by
        unfold itemCost
        rw [if_pos rfl]
      omega
    · have : itemCost (parentPathOf p) = 2 * numSegs (parentPathOf p) + 2 := by
        unfold itemCost
        rw [if_neg hroot]
      omega

theorem aupdate_keys {α : Type} (k : String) (f : α → α) (m : List (String × α)) :
    (aupdate k f m).map Prod.fst = m.map Prod.fst := by
  unfold aupdate
  rw [List.map_map]
  apply List.map_congr_left
  intro pr _
  by_cases h : pr.1 = k
  · simp [h]
  · simp [h]

theorem alookup_append {α : Type} (q : String) (m m2 : List (String × α)) :
    alookup q (m ++ m2) =
      match alookup q m with
      | some v => some v
      | none => alookup q m2 := by
  induction m with
  | nil => rfl
  | cons pr rest ih =>
    rw [List.cons_append, alookup_cons, alookup_cons]
    by_cases h : pr.1 = q
    · rw [if_pos h, if_pos h]
    · rw [if_neg h, if_neg h]
      exact ih

theorem alookup_eq_none_iff {α : Type} (q : String) (m : List (String × α)) :
    alookup q m = none ↔ q ∉ m.map Prod.fst := by
  induction m with
  | nil => simp [alookup]
  | cons pr rest ih =>
    rw [alookup_cons, List.map_cons]
    by_cases h : pr.1 = q
    · simp [h]
    · rw [if_neg h]
      simp only [List.mem_cons, not_or]
      constructor
      · intro hn
        exact ⟨fun he => h he.symm, ih.mp hn⟩
      · intro hq
        exact ih.mpr hq.2

theorem alookup_isSome_of_mem {α : Type} (pr : String × α) (m : List (String × α))
    (h : pr ∈ m) : (alookup pr.1 m).isSome = true := by
  cases hl : alookup pr.1 m with
  | some v => rfl
  | none =>
    exact absurd (List.mem_map.mpr ⟨pr, h, rfl⟩) ((alookup_eq_none_iff pr.1 m).mp hl)

theorem alookup_aupdate_isSome {α : Type} (k q : String) (f : α → α) (m : List (String × α)) :
    (alookup q (aupdate k f m)).isSome = (alookup q m).isSome := by
  by_cases h : q = k
  · subst h
    rw [alookup_aupdate_self]
    cases alookup q m with
    | none => rfl
    | some v => rfl
  · rw [alookup_aupdate_ne k q f m h]

theorem aupdate_mem {α : Type} (k : String) (f : α → α) (m : List (String × α)) :
    ∀ pr ∈ aupdate k f m, ∃ pr0 ∈ m,
      pr = if pr0.1 = k then (pr0.1, f pr0.2) else pr0 := by
  intro pr hpr
  obtain ⟨pr0, hpr0, heq⟩ := List.mem_map.mp hpr
  exact ⟨pr0, hpr0, heq.symm⟩

theorem mem_addChildIfAbsent_self (p : String) (n : DiscoveryNode) :
    p ∈ (addChildIfAbsent p n).children_paths := by
  unfold addChildIfAbsent
  by_cases h : n.children_paths.contains p
  · rw [if_pos h]
    exact List.mem_of_elem_eq_true h
  · rw [if_neg h]
    simp

theorem addChildIfAbsent_children (p : String) (n : DiscoveryNode) :
    n.children_paths ⊆ (addChildIfAbsent p n).children_paths := by
  unfold addChildIfAbsent
  by_cases h : n.children_paths.contains p
  · rw [if_pos h]
    exact fun x hx => hx
  · rw [if_neg h]
    intro x hx
    exact List.mem_append_left _ hx

theorem addChildIfAbsent_nodup (p : String) (n : DiscoveryNode)
    (h : n.children_paths.Nodup) : (addChildIfAbsent p n).children_paths.Nodup := by
  unfold addChildIfAbsent
  by_cases hc : n.children_paths.contains p
  · rw [if_pos hc]
    exact h
  · rw [if_neg hc]
    have hnm : p ∉ n.children_paths := by
      intro hm
      exact absurd (List.elem_eq_true_of_mem hm) (by simpa using hc)
    simp [List.nodup_append, h, hnm]

theorem foldl_max_le_self : ∀ (l : List Nat) (a : Nat), a ≤ l.foldl max a := by
  intro l
  induction l with
  | nil => intro a; exact Nat.le_refl a
  | cons x t ih =>
    intro a
    exact Nat.le_trans (Nat.le_max_left a x) (ih (max a x))

theorem le_foldl_max_of_mem : ∀ (l : List Nat) (a x : Nat), x ∈ l → x ≤ l.foldl max a := by
  intro l
  induction l with
  | nil => intro a x h; simp at h
  | cons y t ih =>
    intro a x h
    rcases List.mem_cons.mp h with h2 | h2
    · subst h2
      exact Nat.le_trans (Nat.le_max_right a x) (foldl_max_le_self t (max a x))
    · exact ih (max a y) x h2

theorem foldl_max_cases : ∀ (l : List Nat) (a : Nat), l.foldl max a = a ∨ l.foldl max a ∈ l := by
  intro l
  induction l with
  | nil => intro a; left; rfl
  | cons y t ih =>
    intro a
    rcases ih (max a y) with h | h
    · rcases max_choice a y with hm | hm
      · left
        rw [List.foldl_cons, h, hm]
      · right
        rw [List.foldl_cons, h, hm]
        exact List.mem_cons_self y t
    · right
      rw [List.foldl_cons]
      exact List.mem_cons_of_mem y h

theorem wlFuel_cons (p : String) (rest : List String) :
    wlFuel (p :: rest) = itemCost p + wlFuel rest := by
  unfold wlFuel
  rw [List.map_cons, List.sum_cons]

theorem wlFuel_append_one (rest : List String) (q : String) :
    wlFuel (rest ++ [q]) = wlFuel rest + itemCost q := by
  unfold wlFuel
  rw [List.map_append, List.sum_append]
  simp [wlFuel]

theorem alookup_aupdate_mono {α : Type} (k : String) (f : α → α) (m : List (String × α))
    (q : String) (v : α) (h : alookup q m = some v) :
    alookup q (aupdate k f m) = some (if q = k then f v else v) := by
  by_cases hq : q = k
  · subst hq
    rw [alookup_aupdate_self, h, if_pos rfl]
    rfl
  · rw [alookup_aupdate_ne k q f m hq, h, if_neg hq]

theorem alookup_append_some {α : Type} (q : String) (m m2 : List (String × α)) (v : α)
    (h : alookup q m = some v) : alookup q (m ++ m2) = some v := by
  rw [alookup_append, h]

theorem aupdate_pres_entry {α : Type} (P : String × α → Prop) (k : String)
    (f : α → α) (hf : ∀ pr : String × α, P pr → P (pr.1, f pr.2))
    (m : List (String × α)) (h : ∀ pr ∈ m, P pr) :
    ∀ pr ∈ aupdate k f m, P pr := by
  intro pr hpr
  obtain ⟨pr0, hpr0, heq⟩ := aupdate_mem k f m pr hpr
  by_cases hk : pr0.1 = k
  · rw [heq, if_pos hk]
    exact hf pr0 (h pr0 hpr0)
  · rw [heq, if_neg hk]
    exact h pr0 hpr0

theorem append_pres_entry {α : Type} (P : String × α → Prop)
    (m m2 : List (String × α)) (h1 : ∀ pr ∈ m, P pr) (h2 : ∀ pr ∈ m2, P pr) :
    ∀ pr ∈ m ++ m2, P pr := by
  intro pr hpr
  rcases List.mem_append.mp hpr with h | h
  · exact h1 pr h
  · exact h2 pr h

theorem addChildIfAbsent_path (p : String) (n : DiscoveryNode) :
    (addChildIfAbsent p n).path = n.path := by
  unfold addChildIfAbsent
  by_cases h : n.children_paths.contains p
  · rw [if_pos h]
  · rw [if_neg h]

theorem addChildIfAbsent_parent (p : String) (n : DiscoveryNode) :
    (addChildIfAbsent p n).parent_path = n.parent_path := by
  unfold addChildIfAbsent
  by_cases h : n.children_paths.contains p
  · rw [if_pos h]
  · rw [if_neg h]

theorem addChildIfAbsent_pub (p : String) (n : DiscoveryNode) :
    (addChildIfAbsent p n).published = n.published := by
  unfold addChildIfAbsent
  by_cases h : n.children_paths.contains p
  · rw [if_pos h]
  · rw [if_neg h]

theorem addChildIfAbsent_depth (p : String) (n : DiscoveryNode) :
    (addChildIfAbsent p n).depth = n.depth := by
  unfold addChildIfAbsent
  by_cases h : n.children_paths.contains p
  · rw [if_pos h]
  · rw [if_neg h]

/-- Invariant of the `processPaths` worklist loop: unique keys, key/path
and key/depth agreement, duplicate-free children lists, all nodes still
unpublished, every pending path is a key, and every key is the root, or
still pending, or fully linked to its parent. -/
structure TreeInv (nodes : List (String × DiscoveryNode)) (wl : List String) : Prop where
  keys_nodup : (nodes.map Prod.fst).Nodup
  path_eq : ∀ pr ∈ nodes, pr.2.path = pr.1
  depth_eq : ∀ pr ∈ nodes, pr.2.depth = jsDepth pr.1
  child_nodup : ∀ pr ∈ nodes, pr.2.children_paths.Nodup
  unpub : ∀ pr ∈ nodes, pr.2.published = false
  wl_keys : ∀ p ∈ wl, (alookup p nodes).isSome = true
  linked : ∀ pr ∈ nodes, pr.1 = "/" ∨ pr.1 ∈ wl ∨
    (pr.2.parent_path = some (parentPathOf pr.1) ∧
     ∃ par, alookup (parentPathOf pr.1) nodes = some par ∧ pr.1 ∈ par.children_paths)

theorem treeInv_stepA (nodes : List (String × DiscoveryNode)) (p : String) (rest : List String)
    (_hp : ¬ p = "/") (hinv : TreeInv nodes (p :: rest))
    (hpar : (alookup (parentPathOf p)
      (aupdate p (fun n => { n with parent_path := some (parentPathOf p) }) nodes)).isSome = true) :
    TreeInv (aupdate (parentPathOf p) (addChildIfAbsent p)
      (aupdate p (fun n => { n with parent_path := some (parentPathOf p) }) nodes)) rest := by
  obtain ⟨par1, hpar1⟩ := Option.isSome_iff_exists.mp hpar
  refine ⟨?_, ?_, ?_, ?_, ?_, ?_, ?_⟩
  · rw [aupdate_keys, aupdate_keys]
    exact hinv.keys_nodup
  · exact aupdate_pres_entry _ _ _ (fun pr hpr => by rw [addChildIfAbsent_path]; exact hpr) _
      (aupdate_pres_entry _ _ _ (fun pr hpr => hpr) _ hinv.path_eq)
  · exact aupdate_pres_entry _ _ _ (fun pr hpr => by rw [addChildIfAbsent_depth]; exact hpr) _
      (aupdate_pres_entry _ _ _ (fun pr hpr => hpr) _ hinv.depth_eq)
  · exact aupdate_pres_entry _ _ _ (fun pr hpr => addChildIfAbsent_nodup p pr.2 hpr) _
      (aupdate_pres_entry _ _ _ (fun pr hpr => hpr) _ hinv.child_nodup)
  · exact aupdate_pres_entry _ _ _ (fun pr hpr => by rw [addChildIfAbsent_pub]; exact hpr) _
      (aupdate_pres_entry _ _ _ (fun pr hpr => hpr) _ hinv.unpub)
  · intro q hq
    rw [alookup_aupdate_isSome, alookup_aupdate_isSome]
    exact hinv.wl_keys q (List.mem_cons_of_mem p hq)
  · intro pr hpr
    obtain ⟨pr1, hpr1m, heq1⟩ := aupdate_mem _ _ _ pr hpr
    obtain ⟨pr0, hpr0m, heq0⟩ := aupdate_mem _ _ _ pr1 hpr1m
    have hfst1 : pr1.1 = pr0.1 := by rw [heq0]; split <;> rfl
    have hfst : pr.1 = pr0.1 := by rw [heq1]; split <;> exact hfst1
    by_cases hroot : pr0.1 = "/"
    · left
      rw [hfst]
      exact hroot
    · by_cases hkp : pr0.1 = p
      · right; right
        have hpr1eq : pr1 = (pr0.1, { pr0.2 with parent_path := some (parentPathOf p) }) := by
          rw [heq0, if_pos hkp]
        constructor
        · rw [hfst, hkp, heq1]
          by_cases hc : pr1.1 = parentPathOf p
          · rw [if_pos hc]
            show (addChildIfAbsent p pr1.2).parent_path = some (parentPathOf p)
            rw [addChildIfAbsent_parent, hpr1eq]
          · rw [if_neg hc, hpr1eq]
        · refine ⟨addChildIfAbsent p par1, ?_, ?_⟩
          · rw [hfst, hkp, alookup_aupdate_self, hpar1]
            rfl
          · rw [hfst, hkp]
            exact mem_addChildIfAbsent_self p par1
      · rcases hinv.linked pr0 hpr0m with h | h | h
        · exact absurd h hroot
        · rcases List.mem_cons.mp h with h2 | h2
          · exact absurd h2 hkp
          · right; left
            rw [hfst]
            exact h2
        · right; right
          obtain ⟨hpp0, par, hpar0, hmem0⟩ := h
          have hpr1eq : pr1 = pr0 := by rw [heq0, if_neg hkp]
          constructor
          · rw [hfst, heq1]
            by_cases hc : pr1.1 = parentPathOf p
            · rw [if_pos hc]
              show (addChildIfAbsent p pr1.2).parent_path = some (parentPathOf pr0.1)
              rw [addChildIfAbsent_parent, hpr1eq]
              exact hpp0
            · rw [if_neg hc, hpr1eq]
              exact hpp0
          · have s1 := alookup_aupdate_mono p
              (fun n => { n with parent_path := some (parentPathOf p) }) nodes
              (parentPathOf pr0.1) par hpar0
            have s2 := alookup_aupdate_mono (parentPathOf p) (addChildIfAbsent p) _
              (parentPathOf pr0.1) _ s1
            refine ⟨_, by rw [hfst]; exact s2, ?_⟩
            rw [hfst]
            dsimp only
            by_cases hqpp : parentPathOf pr0.1 = parentPathOf p
            · rw [if_pos hqpp]
              apply addChildIfAbsent_children
              by_cases hqp : parentPathOf pr0.1 = p
              · rw [if_pos hqp]
                exact hmem0
              · rw [if_neg hqp]
                exact hmem0
            · rw [if_neg hqpp]
              by_cases hqp : parentPathOf pr0.1 = p
              · rw [if_pos hqp]
                exact hmem0
              · rw [if_neg hqp]
                exact hmem0

theorem treeInv_stepB (nodes : List (String × DiscoveryNode)) (p : String) (rest : List String)
    (hinv : TreeInv nodes (p :: rest))
    (hpar : ¬ (alookup (parentPathOf p)
      (aupdate p (fun n => { n with parent_path := some (parentPathOf p) }) nodes)).isSome = true) :
    TreeInv (aupdate (parentPathOf p) (addChildIfAbsent p)
      ((aupdate p (fun n => { n with parent_path := some (parentPathOf p) }) nodes) ++
        [(parentPathOf p, freshNode (parentPathOf p) (jsDepth (parentPathOf p)))]))
      (rest ++ [parentPathOf p]) := by
  have hparn : alookup (parentPathOf p)
      (aupdate p (fun n => { n with parent_path := some (parentPathOf p) }) nodes) = none := by
    cases hl : alookup (parentPathOf p)
        (aupdate p (fun n => { n with parent_path := some (parentPathOf p) }) nodes) with
    | none => rfl
    | some v => rw [hl] at hpar; simp at hpar
  have hppnotin : parentPathOf p ∉ nodes.map Prod.fst := by
    have := (alookup_eq_none_iff (parentPathOf p) _).mp hparn
    rw [aupdate_keys] at this
    exact this
  have hfreshlk : alookup (parentPathOf p)
      ((aupdate p (fun n => { n with parent_path := some (parentPathOf p) }) nodes) ++
        [(parentPathOf p, freshNode (parentPathOf p) (jsDepth (parentPathOf p)))]) =
      some (freshNode (parentPathOf p) (jsDepth (parentPathOf p))) := by
    rw [alookup_append, hparn, alookup_cons, if_pos rfl]
  refine ⟨?_, ?_, ?_, ?_, ?_, ?_, ?_⟩
  · rw [aupdate_keys, List.map_append, aupdate_keys]
    simp only [List.map_cons, List.map_nil]
    rw [List.nodup_append]
    refine ⟨hinv.keys_nodup, List.nodup_singleton _, ?_⟩
    intro a ha hb
    rcases List.mem_singleton.mp hb with hb2
    subst hb2
    exact hppnotin ha
  · exact aupdate_pres_entry _ _ _ (fun pr hpr => by rw [addChildIfAbsent_path]; exact hpr) _
      (append_pres_entry _ _ _
        (aupdate_pres_entry _ _ _ (fun pr hpr => hpr) _ hinv.path_eq)
        (by intro pr hpr; rcases List.mem_singleton.mp hpr with h; subst h; rfl))
  · exact aupdate_pres_entry _ _ _ (fun pr hpr => by rw [addChildIfAbsent_depth]; exact hpr) _
      (append_pres_entry _ _ _
        (aupdate_pres_entry _ _ _ (fun pr hpr => hpr) _ hinv.depth_eq)
        (by intro pr hpr; rcases List.mem_singleton.mp hpr with h; subst h; rfl))
  · exact aupdate_pres_entry _ _ _ (fun pr hpr => addChildIfAbsent_nodup p pr.2 hpr) _
      (append_pres_entry _ _ _
        (aupdate_pres_entry _ _ _ (fun pr hpr => hpr) _ hinv.child_nodup)
        (by intro pr hpr; rcases List.mem_singleton.mp hpr with h; subst h; exact List.nodup_nil))
  · exact aupdate_pres_entry _ _ _ (fun pr hpr => by rw [addChildIfAbsent_pub]; exact hpr) _
      (append_pres_entry _ _ _
        (aupdate_pres_entry _ _ _ (fun pr hpr => hpr) _ hinv.unpub)
        (by intro pr hpr; rcases List.mem_singleton.mp hpr with h; subst h; rfl))
  · intro q hq
    rw [alookup_aupdate_isSome]
    rcases List.mem_append.mp hq with h | h
    · have h0 := hinv.wl_keys q (List.mem_cons_of_mem p h)
      obtain ⟨v, hv⟩ := Option.isSome_iff_exists.mp h0
      have h1 : alookup q (aupdate p (fun n => { n with parent_path := some (parentPathOf p) }) nodes) =
          some (if q = p then { v with parent_path := some (parentPathOf p) } else v) :=
        alookup_aupdate_mono p _ nodes q v hv
      rw [alookup_append_some _ _ _ _ h1]
      rfl
    · rcases List.mem_singleton.mp h with h2
      subst h2
      rw [hfreshlk]
      rfl
  · intro pr hpr
    obtain ⟨pr2, hpr2m, heq2⟩ := aupdate_mem _ _ _ pr hpr
    rcases List.mem_append.mp hpr2m with hin | hnew
    · obtain ⟨pr0, hpr0m, heq0⟩ := aupdate_mem _ _ _ pr2 hin
      have hfst2 : pr2.1 = pr0.1 := by rw [heq0]; split <;> rfl
      have hfst : pr.1 = pr0.1 := by rw [heq2]; split <;> exact hfst2
      by_cases hroot : pr0.1 = "/"
      · left
        rw [hfst]
        exact hroot
      · by_cases hkp : pr0.1 = p
        · right; right
          have hpr2eq : pr2 = (pr0.1, { pr0.2 with parent_path := some (parentPathOf p) }) := by
            rw [heq0, if_pos hkp]
          constructor
          · rw [hfst, hkp, heq2]
            by_cases hc : pr2.1 = parentPathOf p
            · rw [if_pos hc]
              show (addChildIfAbsent p pr2.2).parent_path = some (parentPathOf p)
              rw [addChildIfAbsent_parent, hpr2eq]
            · rw [if_neg hc, hpr2eq]
          · refine ⟨addChildIfAbsent p (freshNode (parentPathOf p) (jsDepth (parentPathOf p))), ?_, ?_⟩
            · rw [hfst, hkp, alookup_aupdate_self, hfreshlk]
              rfl
            · rw [hfst, hkp]
              exact mem_addChildIfAbsent_self p _
        · rcases hinv.linked pr0 hpr0m with h | h | h
          · exact absurd h hroot
          · rcases List.mem_cons.mp h with h2 | h2
            · exact absurd h2 hkp
            · right; left
              rw [hfst]
              exact List.mem_append_left _ h2
          · right; right
            obtain ⟨hpp0, par, hpar0, hmem0⟩ := h
            have hpr2eq : pr2 = pr0 := by rw [heq0, if_neg hkp]
            constructor
            · rw [hfst, heq2]
              by_cases hc : pr2.1 = parentPathOf p
              · rw [if_pos hc]
                show (addChildIfAbsent p pr2.2).parent_path = some (parentPathOf pr0.1)
                rw [addChildIfAbsent_parent, hpr2eq]
                exact hpp0
              · rw [if_neg hc, hpr2eq]
                exact hpp0
            · have s1 := alookup_aupdate_mono p
                (fun n => { n with parent_path := some (parentPathOf p) }) nodes
                (parentPathOf pr0.1) par hpar0
              have s1b := alookup_append_some (parentPathOf pr0.1) _
                [(parentPathOf p, freshNode (parentPathOf p) (jsDepth (parentPathOf p)))] _ s1
              have s2 := alookup_aupdate_mono (parentPathOf p) (addChildIfAbsent p) _
                (parentPathOf pr0.1) _ s1b
              refine ⟨_, by rw [hfst]; exact s2, ?_⟩
              rw [hfst]
              dsimp only
              by_cases hqpp : parentPathOf pr0.1 = parentPathOf p
              · rw [if_pos hqpp]
                apply addChildIfAbsent_children
                by_cases hqp : parentPathOf pr0.1 = p
                · rw [if_pos hqp]
                  exact hmem0
                · rw [if_neg hqp]
                  exact hmem0
              · rw [if_neg hqpp]
                by_cases hqp : parentPathOf pr0.1 = p
                · rw [if_pos hqp]
                  exact hmem0
                · rw [if_neg hqp]
                  exact hmem0
    · rcases List.mem_singleton.mp hnew with h2
      have hfst : pr.1 = parentPathOf p := by
        rw [heq2, h2]
        split <;> rfl
      by_cases hroot : parentPathOf p = "/"
      · left
        rw [hfst]
        exact hroot
      · right; left
        rw [hfst]
        exact List.mem_append_right _ (List.mem_singleton.mpr rfl)

theorem processPaths_inv : ∀ (fuel : Nat) (nodes : List (String × DiscoveryNode)) (wl : List String),
    wlFuel wl ≤ fuel → TreeInv nodes wl → TreeInv (processPaths fuel nodes wl) [] := by
  intro fuel
  induction fuel with
  | zero =>
    intro nodes wl hf hinv
    cases wl with
    | nil => exact hinv
    | cons p rest =>
      exfalso
      have h1 := itemCost_pos p
      have h2 := wlFuel_cons p rest
      omega
  | succ fuel ih =>
    intro nodes wl hf hinv
    cases wl with
    | nil => exact hinv
    | cons p rest =>
      have hfc := wlFuel_cons p rest
      have hcost := itemCost_pos p
      rw [processPaths]
      by_cases hp : p = "/"
      · rw [if_pos hp]
        apply ih _ rest (by omega)
        subst hp
        refine ⟨hinv.keys_nodup, hinv.path_eq, hinv.depth_eq, hinv.child_nodup, hinv.unpub,
          fun q hq => hinv.wl_keys q (List.mem_cons_of_mem _ hq), ?_⟩
        intro pr hpr
        rcases hinv.linked pr hpr with h | h | h
        · exact Or.inl h
        · rcases List.mem_cons.mp h with h2 | h2
          · exact Or.inl h2
          · exact Or.inr (Or.inl h2)
        · exact Or.inr (Or.inr h)
      · rw [if_neg hp]
        dsimp only
        by_cases hpar : (alookup (parentPathOf p)
            (aupdate p (fun n => { n with parent_path := some (parentPathOf p) }) nodes)).isSome = true
        · rw [if_pos hpar]
          exact ih _ rest (by omega) (treeInv_stepA nodes p rest hp hinv hpar)
        · rw [if_neg hpar]
          have hcostpar := itemCost_parent_le p hp
          have hfr : wlFuel (rest ++ [parentPathOf p]) ≤ fuel := by
            rw [wlFuel_append_one]
            omega
          exact ih _ _ hfr (treeInv_stepB nodes p rest hinv hpar)

theorem aupdate_pres_entry_key {α : Type} (P : String × α → Prop) (k : String)
    (f : α → α) (hf : ∀ pr : String × α, pr.1 = k → P pr → P (pr.1, f pr.2))
    (m : List (String × α)) (h : ∀ pr ∈ m, P pr) :
    ∀ pr ∈ aupdate k f m, P pr := by
  intro pr hpr
  obtain ⟨pr0, hpr0, heq⟩ := aupdate_mem k f m pr hpr
  by_cases hk : pr0.1 = k
  · rw [heq, if_pos hk]
    exact hf pr0 hk (h pr0 hpr0)
  · rw [heq, if_neg hk]
    exact h pr0 hpr0

theorem alookup_isSome_iff {α : Type} (q : String) (m : List (String × α)) :
    (alookup q m).isSome = true ↔ q ∈ m.map Prod.fst := by
  cases hl : alookup q m with
  | none =>
    constructor
    · intro h
      simp at h
    · intro hmem
      exact absurd hmem ((alookup_eq_none_iff q m).mp hl)
  | some v =>
    constructor
    · intro _
      exact List.mem_map.mpr ⟨(q, v), alookup_mem q v m hl, rfl⟩
    · intro _
      rfl

theorem string_contains_iff (l : List String) (a : String) :
    l.contains a = true ↔ a ∈ l := by
  simp

/-- Invariant of the first `buildDiscoveryTree` loop: the node keys are
exactly the recorded `allPaths` set, in order, and every created node is a
fresh unpublished node of its own path and depth. -/
def AddInv (acc : List (String × DiscoveryNode) × List String × Nat) : Prop :=
  acc.1.map Prod.fst = acc.2.1 ∧ acc.2.1.Nodup ∧
  (∀ pr ∈ acc.1, pr.2.path = pr.1 ∧ pr.2.depth = jsDepth pr.1 ∧
    pr.2.children_paths = [] ∧ pr.2.published = false)

theorem addGroup_pres (acc : List (String × DiscoveryNode) × List String × Nat)
    (g : DirectoryGroup) (h : AddInv acc) : AddInv (addGroup acc g) := by
  obtain ⟨hkeys, hnd, hent⟩ := h
  unfold addGroup
  dsimp only
  by_cases hc : acc.2.1.contains g.directory_path = true
  · rw [if_pos hc]
    have hmem : g.directory_path ∈ acc.1.map Prod.fst := by
      rw [hkeys]
      exact (string_contains_iff _ _).mp hc
    have hsome : (alookup g.directory_path acc.1).isSome = true :=
      (alookup_isSome_iff _ _).mpr hmem
    unfold aset
    rw [if_pos hsome]
    refine ⟨by rw [aupdate_keys]; exact hkeys, hnd, ?_⟩
    dsimp only
    refine aupdate_pres_entry_key _ g.directory_path _ ?_ acc.1 hent
    intro pr hk _
    exact ⟨by dsimp only; rw [hk]; exact rfl, by dsimp only; rw [hk]; exact rfl, rfl, rfl⟩
  · rw [if_neg hc]
    have hnmem : g.directory_path ∉ acc.1.map Prod.fst := by
      rw [hkeys]
      intro hm
      exact hc ((string_contains_iff _ _).mpr hm)
    have hnone : alookup g.directory_path acc.1 = none :=
      (alookup_eq_none_iff _ _).mpr hnmem
    have hnsome : ¬ (alookup g.directory_path acc.1).isSome = true := by
      rw [hnone]
      simp
    unfold aset
    rw [if_neg hnsome]
    refine ⟨?_, ?_, ?_⟩
    · rw [List.map_append, hkeys]
      rfl
    · rw [List.nodup_append]
      refine ⟨hnd, List.nodup_singleton _, ?_⟩
      intro a ha hb
      rcases List.mem_singleton.mp hb with hb2
      subst hb2
      rw [← hkeys] at ha
      exact hnmem ha
    · apply append_pres_entry _ _ _ hent
      intro pr hpr
      rcases List.mem_singleton.mp hpr with h2
      subst h2
      exact ⟨rfl, rfl, rfl, rfl⟩

theorem addGroup_fold_inv :
    ∀ (gs : List DirectoryGroup) (acc : List (String × DiscoveryNode) × List String × Nat),
      AddInv acc → AddInv (gs.foldl addGroup acc) := by
  intro gs
  induction gs with
  | nil => intro acc h; exact h
  | cons g rest ih =>
    intro acc h
    rw [List.foldl_cons]
    exact ih _ (addGroup_pres acc g h)

theorem root_of_inv (nodes : List (String × DiscoveryNode)) (hinv : TreeInv nodes []) :
    ∀ (N : Nat) (k : String), numSegs k ≤ N → (alookup k nodes).isSome = true →
      (alookup "/" nodes).isSome = true := by
  intro N
  induction N with
  | zero =>
    intro k hN hk
    by_cases hroot : k = "/"
    · rw [← hroot]
      exact hk
    · obtain ⟨v, hv⟩ := Option.isSome_iff_exists.mp hk
      rcases hinv.linked (k, v) (alookup_mem k v nodes hv) with h | h | h
      · exact absurd h hroot
      · simp at h
      · obtain ⟨_, par, hpar, _⟩ := h
        rcases parentPathOf_root_cases k with hpp | hpp
        · rw [← hpp]
          rw [hpar]
          rfl
        · omega
  | succ N ih =>
    intro k hN hk
    by_cases hroot : k = "/"
    · rw [← hroot]
      exact hk
    · obtain ⟨v, hv⟩ := Option.isSome_iff_exists.mp hk
      rcases hinv.linked (k, v) (alookup_mem k v nodes hv) with h | h | h
      · exact absurd h hroot
      · simp at h
      · obtain ⟨_, par, hpar, _⟩ := h
        rcases parentPathOf_root_cases k with hpp | hpp
        · rw [← hpp, hpar]
          rfl
        · have hks : (alookup (parentPathOf k) nodes).isSome = true := by
            rw [hpar]
            rfl
          exact ih (parentPathOf k) (by omega) hks

theorem nodes_nil_of_no_root (nodes : List (String × DiscoveryNode)) (hinv : TreeInv nodes [])
    (habs : ¬ (alookup "/" nodes).isSome = true) : nodes = [] := by
  cases hn : nodes with
  | nil => rfl
  | cons pr rest =>
    exfalso
    apply habs
    have hk : (alookup pr.1 nodes).isSome = true := by
      rw [hn]
      exact alookup_isSome_of_mem pr _ (List.mem_cons_self pr rest)
    exact root_of_inv nodes hinv (numSegs pr.1) pr.1 (Nat.le_refl _) hk

/-- The first-loop accumulator of `buildDiscoveryTree` (named for proofs). -/
def bdtInit (m : BatchManifest) : List (String × DiscoveryNode) × List String × Nat :=
  m.directories.foldl addGroup ([], [], 0)

/-- The node map after the `processPaths` worklist loop. -/
def bdtNodes1 (m : BatchManifest) : List (String × DiscoveryNode) :=
  processPaths (wlFuel (bdtInit m).2.1) (bdtInit m).1 (bdtInit m).2.1

/-- The node map after the ensure-root step. -/
def bdtNodes2 (m : BatchManifest) : List (String × DiscoveryNode) :=
  if (alookup "/" (bdtNodes1 m)).isSome then bdtNodes1 m
  else
    bdtNodes1 m ++ [("/", { freshNode "/" 0 with
      children_paths := ((bdtNodes1 m).map Prod.fst).filter fun p =>
        if p = "/" then false else numSegs p == 1 })]

theorem buildDiscoveryTree_nodes (m : BatchManifest) :
    (buildDiscoveryTree m).nodes = bdtNodes2 m := rfl

theorem buildDiscoveryTree_depth (m : BatchManifest) :
    (buildDiscoveryTree m).current_depth =
      ((bdtNodes2 m).map fun pr => pr.2.depth).foldl max 0 := rfl

theorem bdtInit_inv (m : BatchManifest) : AddInv (bdtInit m) := by
  apply addGroup_fold_inv
  refine ⟨rfl, List.nodup_nil, ?_⟩
  intro pr h
  simp at h

theorem bdtNodes1_inv (m : BatchManifest) : TreeInv (bdtNodes1 m) [] := by
  apply processPaths_inv _ _ _ (Nat.le_refl _)
  obtain ⟨hkeys, hnd, hent⟩ := bdtInit_inv m
  refine ⟨by rw [hkeys]; exact hnd, fun pr hpr => (hent pr hpr).1,
    fun pr hpr => (hent pr hpr).2.1, ?_, fun pr hpr => (hent pr hpr).2.2.2, ?_, ?_⟩
  · intro pr hpr
    rw [(hent pr hpr).2.2.1]
    exact List.nodup_nil
  · intro p hp
    rw [alookup_isSome_iff, hkeys]
    exact hp
  · intro pr hpr
    right; left
    rw [← hkeys]
    exact List.mem_map.mpr ⟨pr, hpr, rfl⟩

theorem bdtNodes2_inv (m : BatchManifest) :
    TreeInv (bdtNodes2 m) [] ∧ (alookup "/" (bdtNodes2 m)).isSome = true := by
  unfold bdtNodes2
  by_cases hroot : (alookup "/" (bdtNodes1 m)).isSome = true
  · rw [if_pos hroot]
    exact ⟨bdtNodes1_inv m, hroot⟩
  · rw [if_neg hroot]
    have hnil : bdtNodes1 m = [] := nodes_nil_of_no_root _ (bdtNodes1_inv m) hroot
    rw [hnil]
    constructor
    · refine ⟨?_, ?_, ?_, ?_, ?_, ?_, ?_⟩
      · simp
      · intro pr hpr
        rcases List.mem_singleton.mp (by simpa using hpr) with h2
        subst h2
        rfl
      · intro pr hpr
        rcases List.mem_singleton.mp (by simpa using hpr) with h2
        subst h2
        rfl
      · intro pr hpr
        rcases List.mem_singleton.mp (by simpa using hpr) with h2
        subst h2
        simp
      · intro pr hpr
        rcases List.mem_singleton.mp (by simpa using hpr) with h2
        subst h2
        rfl
      · intro p hp
        simp at hp
      · intro pr hpr
        rcases List.mem_singleton.mp (by simpa using hpr) with h2
        subst h2
        left
        rfl
    · rw [List.nil_append, alookup_cons, if_pos rfl]
      rfl

/-- C5: tree-builder well-formedness.  For every manifest the built state
has duplicate-free node keys (each directory path keys exactly one node);
a root node at `/` exists even when the manifest mentions no root files;
every node's `path` field is its key; every non-root node has
`parent_path = parentPathOf` of its key, that parent is itself a key, and
the node's key appears exactly once in the parent's `children_paths`; and
`current_depth` is the maximum node depth (an upper bound that is
attained). -/
theorem claim_C5_tree_wellformed (m : BatchManifest) :
    ((buildDiscoveryTree m).nodes.map Prod.fst).Nodup ∧
    (alookup "/" (buildDiscoveryTree m).nodes).isSome = true ∧
    (∀ pr ∈ (buildDiscoveryTree m).nodes, pr.2.path = pr.1) ∧
    (∀ pr ∈ (buildDiscoveryTree m).nodes, ¬ pr.1 = "/" →
       pr.2.parent_path = some (parentPathOf pr.1) ∧
       ∃ par, alookup (parentPathOf pr.1) (buildDiscoveryTree m).nodes = some par ∧
         par.children_paths.count pr.1 = 1) ∧
    (∀ pr ∈ (buildDiscoveryTree m).nodes, pr.2.depth ≤ (buildDiscoveryTree m).current_depth) ∧
    (∃ pr ∈ (buildDiscoveryTree m).nodes, pr.2.depth = (buildDiscoveryTree m).current_depth) := by
  obtain ⟨hinv, hroot⟩ := bdtNodes2_inv m
  rw [buildDiscoveryTree_nodes]
  refine ⟨hinv.keys_nodup, hroot, hinv.path_eq, ?_, ?_, ?_⟩
  · intro pr hpr hnr
    rcases hinv.linked pr hpr with h | h | h
    · exact absurd h hnr
    · simp at h
    · obtain ⟨hpp, par, hpar, hmem⟩ := h
      refine ⟨hpp, par, hpar, ?_⟩
      have hnd := hinv.child_nodup (parentPathOf pr.1, par) (alookup_mem _ _ _ hpar)
      exact List.count_eq_one_of_mem hnd hmem
  · intro pr hpr
    rw [buildDiscoveryTree_depth]
    exact le_foldl_max_of_mem _ 0 _ (List.mem_map.mpr ⟨pr, hpr, rfl⟩)
  · rw [buildDiscoveryTree_depth]
    rcases foldl_max_cases ((bdtNodes2 m).map fun pr => pr.2.depth) 0 with h | h
    · obtain ⟨rn, hrn⟩ := Option.isSome_iff_exists.mp hroot
      refine ⟨("/", rn), alookup_mem _ _ _ hrn, ?_⟩
      rw [h]
      have hd := hinv.depth_eq ("/", rn) (alookup_mem _ _ _ hrn)
      rw [hd]
      rfl
    · obtain ⟨pr, hpr, heq⟩ := List.mem_map.mp h
      exact ⟨pr, hpr, heq⟩

/-- The `/a/b` entry of the tree built from the three-directory scenario
manifest. -/
def w5pr : String × DiscoveryNode :=
  ("/a/b",
    { path := "/a/b", depth := 2, parent_path := some "/a",
      text_files := [{ filename := "b.txt", r2_key := "kab" }] })

/-- C5 witness: the well-formedness theorem applied to the scenario
manifest at its `/a/b` node. -/
theorem claim_C5_witness :
    w5pr.2.parent_path = some (parentPathOf w5pr.1) ∧
    ∃ par, alookup (parentPathOf w5pr.1) (buildDiscoveryTree scnManifest).nodes = some par ∧
      par.children_paths.count w5pr.1 = 1 :=
  (claim_C5_tree_wellformed scnManifest).2.2.2.1 w5pr (by decide) (by decide)

-- ===========================================================================
-- Proofs: C1 (bottom-up publication invariant)
-- ===========================================================================

/-- The publication-relevant skeleton of a node entry: key, path,
published flag, children list. -/
def nodeSkel (pr : String × DiscoveryNode) : String × String × Bool × List String :=
  (pr.1, pr.2.path, pr.2.published, pr.2.children_paths)

theorem skel_entry (m m2 : List (String × DiscoveryNode))
    (h : m2.map nodeSkel = m.map nodeSkel) :
    ∀ pr2 ∈ m2, ∃ pr ∈ m, nodeSkel pr = nodeSkel pr2 := by
  intro pr2 hpr2
  have hm : nodeSkel pr2 ∈ m.map nodeSkel := by
    rw [← h]
    exact List.mem_map.mpr ⟨pr2, hpr2, rfl⟩
  obtain ⟨pr, hpr, heq⟩ := List.mem_map.mp hm
  exact ⟨pr, hpr, heq⟩

theorem skel_keys (m m2 : List (String × DiscoveryNode))
    (h : m2.map nodeSkel = m.map nodeSkel) :
    m2.map Prod.fst = m.map Prod.fst := by
  have h1 : ∀ (l : List (String × DiscoveryNode)),
      l.map Prod.fst = (l.map nodeSkel).map (fun x => x.1) := by
    intro l
    rw [List.map_map]
    apply List.map_congr_left
    intro pr _
    rfl
  rw [h1 m2, h1 m, h]

theorem skel_alookup (m m2 : List (String × DiscoveryNode))
    (h : m2.map nodeSkel = m.map nodeSkel) (q : String) :
    (alookup q m2).map (fun n => (n.published, n.children_paths)) =
      (alookup q m).map (fun n => (n.published, n.children_paths)) := by
  induction m2 generalizing m with
  | nil =>
    have : m.map nodeSkel = [] := h.symm
    rw [List.map_eq_nil_iff.mp this]
  | cons pr2 rest2 ih =>
    cases m with
    | nil => simp at h
    | cons pr rest =>
      rw [List.map_cons, List.map_cons] at h
      injection h with h1 h2
      have hk : pr2.1 = pr.1 := congrArg (fun x => x.1) h1
      have hpub : pr2.2.published = pr.2.published := congrArg (fun x => x.2.2.1) h1
      have hch : pr2.2.children_paths = pr.2.children_paths := congrArg (fun x => x.2.2.2) h1
      rw [alookup_cons, alookup_cons, hk]
      by_cases hq : pr.1 = q
      · rw [if_pos hq, if_pos hq]
        simp [hpub, hch]
      · rw [if_neg hq, if_neg hq]
        exact ih rest h2

theorem allCh_iff (n : DiscoveryNode) (s : DiscoveryState) :
    allChildrenPublished n s = true ↔
      ∀ cp ∈ n.children_paths, ∃ c, alookup cp s.nodes = some c ∧ c.published = true := by
  unfold allChildrenPublished
  rw [List.all_eq_true]
  constructor
  · intro h cp hcp
    have h2 := h cp hcp
    cases hl : alookup cp s.nodes with
    | none =>
      rw [hl] at h2
      simp at h2
    | some c =>
      rw [hl] at h2
      exact ⟨c, rfl, h2⟩
  · intro h cp hcp
    obtain ⟨c, hc, hpub⟩ := h cp hcp
    rw [hc]
    exact hpub

/-- A directory is never marked published before all of its
`children_paths` refer to published nodes. -/
def publishedClosed (s : DiscoveryState) : Prop :=
  ∀ pr ∈ s.nodes, pr.2.published = true → allChildrenPublished pr.2 s = true

/-- The bottom-up invariant carried through discovery steps: unique node
keys, key/path agreement, and closedness of the published set. -/
structure PubWF (s : DiscoveryState) : Prop where
  nodup : (s.nodes.map Prod.fst).Nodup
  path_eq : ∀ pr ∈ s.nodes, pr.2.path = pr.1
  closed : publishedClosed s

theorem pubWF_of_skelEq (s s2 : DiscoveryState)
    (h : s2.nodes.map nodeSkel = s.nodes.map nodeSkel) (hwf : PubWF s) : PubWF s2 := by
  refine ⟨?_, ?_, ?_⟩
  · rw [skel_keys _ _ h]
    exact hwf.nodup
  · intro pr2 hpr2
    obtain ⟨pr, hpr, hsk⟩ := skel_entry _ _ h pr2 hpr2
    have hk : pr.1 = pr2.1 := congrArg (fun x => x.1) hsk
    have hpath : pr.2.path = pr2.2.path := congrArg (fun x => x.2.1) hsk
    rw [← hpath, hwf.path_eq pr hpr, hk]
  · intro pr2 hpr2 hpub
    obtain ⟨pr, hpr, hsk⟩ := skel_entry _ _ h pr2 hpr2
    have hpubeq : pr.2.published = pr2.2.published := congrArg (fun x => x.2.2.1) hsk
    have hch : pr.2.children_paths = pr2.2.children_paths := congrArg (fun x => x.2.2.2) hsk
    have hclosed := hwf.closed pr hpr (by rw [hpubeq]; exact hpub)
    rw [allCh_iff] at hclosed ⊢
    intro cp hcp
    have hcp2 : cp ∈ pr.2.children_paths := by
      rw [hch]
      exact hcp
    obtain ⟨c, hc, hcpub⟩ := hclosed cp hcp2
    have hlk := skel_alookup _ _ h cp
    rw [hc] at hlk
    cases hl2 : alookup cp s2.nodes with
    | none =>
      rw [hl2] at hlk
      simp at hlk
    | some c2 =>
      rw [hl2] at hlk
      refine ⟨c2, rfl, ?_⟩
      have hpair : (c2.published, c2.children_paths) = (c.published, c.children_paths) := by
        injection hlk
      have hp2 : c2.published = c.published := congrArg Prod.fst hpair
      rw [hp2]
      exact hcpub

theorem aupdate_skel (k : String) (f : DiscoveryNode → DiscoveryNode)
    (hf : ∀ n, (f n).path = n.path ∧ (f n).published = n.published ∧
      (f n).children_paths = n.children_paths) (m : List (String × DiscoveryNode)) :
    (aupdate k f m).map nodeSkel = m.map nodeSkel := by
  unfold aupdate
  rw [List.map_map]
  apply List.map_congr_left
  intro pr _
  show nodeSkel (if pr.1 = k then (pr.1, f pr.2) else pr) = nodeSkel pr
  by_cases h : pr.1 = k
  · rw [if_pos h]
    unfold nodeSkel
    rw [(hf pr.2).1, (hf pr.2).2.1, (hf pr.2).2.2]
  · rw [if_neg h]

theorem applyUpload_skel (env : String → UploadOutcome) (s : DiscoveryState)
    (it : String × Nat) : (applyUpload env s it).nodes.map nodeSkel = s.nodes.map nodeSkel := by
  cases it with
  | mk q j =>
    cases hn : alookup q s.nodes with
    | none => rw [show applyUpload env s (q, j) = s from by simp [applyUpload, hn]]
    | some n =>
      cases hf : n.text_files[j]? with
      | none => rw [show applyUpload env s (q, j) = s from by simp [applyUpload, hn, hf]]
      | some f =>
        cases he : env f.r2_key with
        | missing => rw [applyUpload_missing env s q j n f hn hf he]
        | ok c =>
          rw [applyUpload_eq_ok env s q j n f c hn hf he]
          dsimp only
          refine aupdate_skel _ _ ?_ _
          intro n2
          exact ⟨rfl, rfl, rfl⟩
        | err =>
          rw [applyUpload_eq_err env s q j n f hn hf he]
          dsimp only
          refine aupdate_skel _ _ ?_ _
          intro n2
          exact ⟨rfl, rfl, rfl⟩

theorem foldl_upload_skel (env : String → UploadOutcome) :
    ∀ (items : List (String × Nat)) (s : DiscoveryState),
      ((items.foldl (applyUpload env) s).nodes.map nodeSkel) = s.nodes.map nodeSkel := by
  intro items
  induction items with
  | nil => intro s; rfl
  | cons it rest ih =>
    intro s
    rw [List.foldl_cons, ih, applyUpload_skel]

theorem uploadFileBatch_skel (env : String → UploadOutcome) (bs : Nat) (s : DiscoveryState) :
    (uploadFileBatch env bs s).1.nodes.map nodeSkel = s.nodes.map nodeSkel := by
  unfold uploadFileBatch
  dsimp only
  by_cases hp : ((getFilesNeedingUpload s).take bs).isEmpty
  · rw [if_pos hp]
  · rw [if_neg hp]
    by_cases hq : (getFilesNeedingUpload (((getFilesNeedingUpload s).take bs).foldl (applyUpload env) s)).isEmpty
    · rw [if_pos hq]
      exact foldl_upload_skel env _ s
    · rw [if_neg hq]
      exact foldl_upload_skel env _ s

theorem ready_spec (s : DiscoveryState) (n : DiscoveryNode)
    (h : n ∈ getDirectoriesReadyToPublish s) :
    n ∈ s.nodes.map Prod.snd ∧ n.depth = s.current_depth ∧ n.published = false ∧
      allChildrenPublished n s = true := by
  unfold getDirectoriesReadyToPublish at h
  have hm := List.mem_filter.mp h
  obtain ⟨hmem, hcond⟩ := hm
  simp only [Bool.and_eq_true, beq_iff_eq, Bool.not_eq_true'] at hcond
  exact ⟨hmem, hcond.1.1, hcond.1.2, hcond.2⟩

theorem alookup_aupdate {α : Type} (k : String) (f : α → α) (m : List (String × α))
    (q : String) :
    alookup q (aupdate k f m) = (alookup q m).map (fun v => if q = k then f v else v) := by
  by_cases hq : q = k
  · subst hq
    rw [alookup_aupdate_self]
    cases alookup q m with
    | none => rfl
    | some v => simp
  · rw [alookup_aupdate_ne k q f m hq]
    cases alookup q m with
    | none => rfl
    | some v => simp [hq]

/-- The node mutation `publishDirectory` performs on the published entry. -/
def pubMark (res : CreateResult) (m : DiscoveryNode) : DiscoveryNode :=
  { m with pi := some res.pi, tip := some res.tip, version := some res.ver, published := true }

theorem publishDirectory_alookup (penv : String → CreateResult)
    (pre : List (String × String)) (t : DiscoveryState) (n : DiscoveryNode) (q : String) :
    alookup q (publishDirectory penv pre t n).1.nodes =
      (alookup q t.nodes).map (fun v => if q = n.path then pubMark (penv n.path) v else v) := by
  unfold publishDirectory
  dsimp only
  rw [alookup_aupdate]
  cases alookup q t.nodes with
  | none => rfl
  | some v =>
    dsimp only [Option.map]
    by_cases hq : q = n.path
    · rw [if_pos hq, if_pos hq]
      rfl
    · rw [if_neg hq, if_neg hq]

theorem publishDirectory_keys (penv : String → CreateResult)
    (pre : List (String × String)) (t : DiscoveryState) (n : DiscoveryNode) :
    (publishDirectory penv pre t n).1.nodes.map Prod.fst = t.nodes.map Prod.fst := by
  unfold publishDirectory
  dsimp only
  rw [aupdate_keys]

/-- Relation between the pre-batch state `s` and an intermediate state `t`
while a publish batch folds: keys and children unchanged, published flags
only grown, invariant intact. -/
structure PubCtx (s t : DiscoveryState) : Prop where
  keys : t.nodes.map Prod.fst = s.nodes.map Prod.fst
  path_eq : ∀ pr ∈ t.nodes, pr.2.path = pr.1
  nodup : (t.nodes.map Prod.fst).Nodup
  closed : publishedClosed t
  ch : ∀ q, (alookup q t.nodes).map (fun n => n.children_paths) =
    (alookup q s.nodes).map (fun n => n.children_paths)
  mono : ∀ q c, alookup q s.nodes = some c → c.published = true →
    ∃ c2, alookup q t.nodes = some c2 ∧ c2.published = true

theorem pubctx_refl (s : DiscoveryState) (hwf : PubWF s) : PubCtx s s :=
  ⟨rfl, hwf.path_eq, hwf.nodup, hwf.closed, fun _ => rfl,
   fun _ c hq hc => ⟨c, hq, hc⟩⟩

theorem pubctx_publish (penv : String → CreateResult) (pre : List (String × String))
    (s t : DiscoveryState) (n : DiscoveryNode) (hwf : PubWF s) (hctx : PubCtx s t)
    (hn : n ∈ getDirectoriesReadyToPublish s) :
    PubCtx s (publishDirectory penv pre t n).1 := by
  obtain ⟨hnmem, _, _, hnall⟩ := ready_spec s n hn
  obtain ⟨pr0, hpr0, hpr0eq⟩ := List.mem_map.mp hnmem
  have hkey0 : pr0.1 = n.path := by
    rw [← hpr0eq]
    exact (hwf.path_eq pr0 hpr0).symm
  have hlk_s : alookup n.path s.nodes = some n := by
    have hpn : (n.path, n) ∈ s.nodes := by
      have he : pr0 = (n.path, n) := Prod.ext hkey0 hpr0eq
      rw [← he]
      exact hpr0
    exact nodup_alookup n.path n s.nodes hwf.nodup hpn
  have hstep_mono : ∀ q c, alookup q t.nodes = some c → c.published = true →
      ∃ c2, alookup q (publishDirectory penv pre t n).1.nodes = some c2 ∧
        c2.published = true := by
    intro q c hq hc
    rw [publishDirectory_alookup, hq]
    refine ⟨_, rfl, ?_⟩
    dsimp only
    by_cases hqn : q = n.path
    · rw [if_pos hqn]
      rfl
    · rw [if_neg hqn]
      exact hc
  have hlk2 : ∀ pr2 ∈ (publishDirectory penv pre t n).1.nodes,
      ∃ c, alookup pr2.1 t.nodes = some c ∧
        pr2.2 = (if pr2.1 = n.path then pubMark (penv n.path) c else c) := by
    intro pr2 hpr2
    have hnd2 : ((publishDirectory penv pre t n).1.nodes.map Prod.fst).Nodup := by
      rw [publishDirectory_keys]
      exact hctx.nodup
    have hself : alookup pr2.1 (publishDirectory penv pre t n).1.nodes = some pr2.2 :=
      nodup_alookup pr2.1 pr2.2 _ hnd2 hpr2
    rw [publishDirectory_alookup] at hself
    cases hq : alookup pr2.1 t.nodes with
    | none =>
      rw [hq] at hself
      simp at hself
    | some c =>
      rw [hq] at hself
      dsimp only [Option.map] at hself
      refine ⟨c, rfl, ?_⟩
      injection hself with h1
      exact h1.symm
  refine ⟨?_, ?_, ?_, ?_, ?_, ?_⟩
  · rw [publishDirectory_keys]
    exact hctx.keys
  · intro pr2 hpr2
    obtain ⟨c, hc, he⟩ := hlk2 pr2 hpr2
    have hpe := hctx.path_eq (pr2.1, c) (alookup_mem _ _ _ hc)
    rw [he]
    by_cases hqn : pr2.1 = n.path
    · rw [if_pos hqn]
      exact hpe
    · rw [if_neg hqn]
      exact hpe
  · rw [publishDirectory_keys]
    exact hctx.nodup
  · intro pr2 hpr2 hpub2
    obtain ⟨c, hc, he⟩ := hlk2 pr2 hpr2
    rw [allCh_iff]
    intro cp hcp
    by_cases hqn : pr2.1 = n.path
    · -- the directory being published: its children are n's children,
      -- all published in s, hence still published now
      have hch2 : pr2.2.children_paths = c.children_paths := by
        rw [he, if_pos hqn]
        rfl
      have hc2 : alookup n.path t.nodes = some c := by
        rw [← hqn]
        exact hc
      have hcn : c.children_paths = n.children_paths := by
        have h1 := hctx.ch n.path
        rw [hc2, hlk_s] at h1
        injection h1
      rw [hch2, hcn] at hcp
      obtain ⟨d, hds, hdpub⟩ := (allCh_iff n s).mp hnall cp hcp
      obtain ⟨d1, hd1, hd1pub⟩ := hctx.mono cp d hds hdpub
      exact hstep_mono cp d1 hd1 hd1pub
    · have he2 : pr2.2 = c := by
        rw [he, if_neg hqn]
      have hcpub : c.published = true := by
        rw [← he2]
        exact hpub2
      have hcl := hctx.closed (pr2.1, c) (alookup_mem _ _ _ hc) hcpub
      rw [allCh_iff] at hcl
      have hcp2 : cp ∈ c.children_paths := by
        rw [← he2]
        exact hcp
      obtain ⟨d, hd, hdpub⟩ := hcl cp hcp2
      exact hstep_mono cp d hd hdpub
  · intro q
    rw [publishDirectory_alookup]
    rw [← hctx.ch q]
    cases alookup q t.nodes with
    | none => rfl
    | some v =>
      dsimp only [Option.map]
      by_cases hqn : q = n.path
      · rw [if_pos hqn]
        rfl
      · rw [if_neg hqn]
  · intro q c hq hc
    obtain ⟨c1, hc1, hc1pub⟩ := hctx.mono q c hq hc
    exact hstep_mono q c1 hc1 hc1pub

theorem publish_fold_ctx (penv : String → CreateResult) (pre : List (String × String))
    (s : DiscoveryState) (hwf : PubWF s) :
    ∀ (dirs : List DiscoveryNode) (acc : DiscoveryState × List CreateCall),
      (∀ n ∈ dirs, n ∈ getDirectoriesReadyToPublish s) → PubCtx s acc.1 →
      PubCtx s (dirs.foldl (fun acc n =>
        let r := publishDirectory penv pre acc.1 n
        (r.1, acc.2 ++ [r.2])) acc).1 := by
  intro dirs
  induction dirs with
  | nil => intro acc _ hctx; exact hctx
  | cons d rest ih =>
    intro acc hall hctx
    rw [List.foldl_cons]
    dsimp only
    exact ih _ (fun n hn => hall n (List.mem_cons_of_mem d hn))
      (pubctx_publish penv pre s acc.1 d hwf hctx (hall d (List.mem_cons_self d rest)))

theorem applyPublishList_pubwf (penv : String → CreateResult) (pre : List (String × String))
    (s : DiscoveryState) (dirs : List DiscoveryNode) (hwf : PubWF s)
    (hall : ∀ n ∈ dirs, n ∈ getDirectoriesReadyToPublish s) :
    PubWF (applyPublishList penv pre s dirs).1 := by
  have hctx := publish_fold_ctx penv pre s hwf dirs (s, []) hall (pubctx_refl s hwf)
  exact ⟨hctx.nodup, hctx.path_eq, hctx.closed⟩

theorem dstep_pubwf {s s2 : DiscoveryState} (h : DStep s s2) (hwf : PubWF s) : PubWF s2 := by
  cases h with
  | upload uenv bs s hph => exact pubWF_of_skelEq s _ (uploadFileBatch_skel uenv bs s) hwf
  | publishFull penv bs s hph =>
    unfold publishDirectoryBatch
    dsimp only
    by_cases hr : ((getDirectoriesReadyToPublish s).take bs).isEmpty
    · rw [if_pos hr]
      by_cases hd : 0 < s.current_depth
      · rw [if_pos hd]
        exact ⟨hwf.nodup, hwf.path_eq, hwf.closed⟩
      · rw [if_neg hd]
        exact ⟨hwf.nodup, hwf.path_eq, hwf.closed⟩
    · rw [if_neg hr]
      dsimp only
      exact applyPublishList_pubwf penv s.node_pis s _ hwf
        (fun n hn => List.mem_of_mem_take hn)
  | publishPartial penv bs s sub hsub hph =>
    exact applyPublishList_pubwf penv s.node_pis s sub hwf
      (fun n hn => List.mem_of_mem_take (hsub.subset hn))
  | rel pp s hph => exact ⟨hwf.nodup, hwf.path_eq, hwf.closed⟩

theorem dreachable_pubwf {m : BatchManifest} {s : DiscoveryState}
    (h : DReachable m s) : PubWF s := by
  induction h with
  | init =>
    obtain ⟨hinv, _⟩ := bdtNodes2_inv m
    refine ⟨hinv.keys_nodup, hinv.path_eq, ?_⟩
    intro pr hpr hpub
    rw [hinv.unpub pr hpr] at hpub
    simp at hpub
  | step hr hst ih => exact dstep_pubwf hst ih

/-- C1: bottom-up publication invariant.  In every state reachable by
Discovery Processor steps, a node marked published has all entries of its
`children_paths` resolving to published nodes; and
`getDirectoriesReadyToPublish` (the only source of nodes
`publishDirectoryBatch` publishes) selects only unpublished nodes at the
current depth all of whose children are published. -/
theorem claim_C1_bottom_up :
    (∀ (m : BatchManifest) (s : DiscoveryState), DReachable m s →
       ∀ pr ∈ s.nodes, pr.2.published = true → allChildrenPublished pr.2 s = true) ∧
    (∀ (s : DiscoveryState) (n : DiscoveryNode), n ∈ getDirectoriesReadyToPublish s →
       n.depth = s.current_depth ∧ n.published = false ∧ allChildrenPublished n s = true) := by
  constructor
  · intro m s h pr hpr hpub
    exact (dreachable_pubwf h).closed pr hpr hpub
  · intro s n h
    exact (ready_spec s n h).2

/-- The scenario state after the tree build. -/
def w1s0 : DiscoveryState := buildDiscoveryTree scnManifest

/-- The scenario state after one (exhaustive) upload batch. -/
def w1s1 : DiscoveryState := (uploadFileBatch scnUploadOk 1000 w1s0).1

/-- The scenario state after the first publish batch (depth 2). -/
def w1s2 : DiscoveryState := (publishDirectoryBatch scnCreate 1000 w1s1).1

/-- The `/a/b` node as it is ready to publish in `w1s1`. -/
def w1n : DiscoveryNode :=
  { path := "/a/b", depth := 2, parent_path := some "/a",
    text_files := [{ filename := "b.txt", r2_key := "kab", cid := some "cid_kab" }] }

/-- The published `/a/b` entry of `w1s2`. -/
def w1pr : String × DiscoveryNode :=
  ("/a/b", { w1n with
    published := true
    pi := some "pi_/a/b"
    tip := some "tip_/a/b"
    version := some 1 })

/-- C1 witness: the invariant applied to the concrete scenario run after
its first publish step, and the ready-set characterization applied to the
`/a/b` node selected by that step. -/
theorem claim_C1_witness :
    allChildrenPublished w1pr.2 w1s2 = true ∧
    (w1n.depth = w1s1.current_depth ∧ w1n.published = false ∧
      allChildrenPublished w1n w1s1 = true) := by
  constructor
  · exact claim_C1_bottom_up.1 scnManifest w1s2
      (DReachable.step
        (DReachable.step DReachable.init (DStep.upload scnUploadOk 1000 w1s0 (by decide)))
        (DStep.publishFull scnCreate 1000 w1s1 (by decide)))
      w1pr (by decide) (by decide)
  · exact claim_C1_bottom_up.2 w1s1 w1n (by decide)

end ArkeIngest
